import Mathlib

/-!
Verification of the project dependency graph builder of the Plastic-App
repository (src/plastic_app/app.py) against its natural-language
specification.  The Python core is shallowly embedded: directory trees are
an inductive type, per-file parse results are an `Option` (with `none`
standing for a file whose content cannot be parsed), the networkx digraph
is a record of a node list (identifier paired with an optional type
attribute) and an edge list, and every operation of the core
(`get_imports_for_file`, `build_full_dependency_graph`,
`_get_effective_root`, the filesystem subgraph and search-map derivations
of `upload_project`, `generate_numbered_report`,
`generate_json_report_recursive`) is translated line by line.
-/

namespace PlasticApp

/-! ### String helpers

Python string operations used by the source, modelled over the character
list of a `String` so that they evaluate inside the kernel.  They agree
with the Python semantics of `str.startswith`, `str.endswith`,
`os.path.join` (posix, relative second argument) and `os.path.basename`.
-/

/-- Python `s.startswith(p)`. -/
def strStartsWith (s p : String) : Bool := p.data.isPrefixOf s.data

/-- Python `s.endswith(p)`. -/
def strEndsWith (s p : String) : Bool := p.data.isSuffixOf s.data

/-- Whether a string contains the path separator character. -/
def hasSlash (s : String) : Bool := s.data.contains '/'

/-- Python `os.path.join(p, n)` for a relative component `n` on a posix
host (the `.replace('\\', '/')` of the source is the identity there). -/
def pathJoin (p n : String) : String :=
  if p.isEmpty then n else p ++ "/" ++ n

/-- Python `os.path.basename`: everything after the last separator. -/
def basename (s : String) : String :=
  ⟨(s.data.reverse.takeWhile (fun c => c ≠ '/')).reverse⟩

/-- Lexicographic comparison of character lists by code point: the
comparison Python applies to strings. -/
def charsLt : List Char → List Char → Bool
  | [], [] => false
  | [], _ :: _ => true
  | _ :: _, [] => false
  | a :: as, b :: bs =>
    if a < b then true else if b < a then false else charsLt as bs

/-- Python `s < t` on strings. -/
def strLt (s t : String) : Bool := charsLt s.data t.data

/-- Python `s <= t` on strings (the order is total). -/
def strLe (s t : String) : Bool := !(strLt t s)

/-! ### Import statements and the Import Extractor

A parsed Python file is abstracted as the list of `import` / `from`
statements that `ast.walk` finds in it, in source order.  A dotted module
path is a first segment paired with the remaining segments, so
`alias.name.split('.')[0]` is the first component.  A file whose text
cannot be parsed (syntax error, encoding failure, I/O error) is
represented by `none`: in the source the `except` branch of
`get_imports_for_file` logs a warning and the empty set is returned.
-/

/-- One import statement, as seen by `ast.walk`:
`imp` is `import a.b.c, d.e` (one entry per alias, each a dotted path),
`impFrom` is `from a.b import c` (the dotted from-path, or `none` for a
relative import with no named module, `from . import x`). -/
inductive ImportStmt : Type where
  | imp (names : List (String × List String)) : ImportStmt
  | impFrom (mod : Option (String × List String)) : ImportStmt
deriving DecidableEq

/-- The parse result of one file: `none` when parsing fails. -/
abbrev PyContent := Option (List ImportStmt)

/-- The names one statement adds to the `imports` set
(app.py lines 40-43): for `ast.Import` the first segment of every alias,
for `ast.ImportFrom` the first segment of the from-path when a module is
named, nothing otherwise. -/
def stmtTopLevels : ImportStmt → List String
  | .imp names => names.map (fun a => a.1)
  | .impFrom none => []
  | .impFrom (some m) => [m.1]

/-- All names added to the set over the whole walk, in statement order. -/
def collectNames : List ImportStmt → List String
  | [] => []
  | st :: rest => stmtTopLevels st ++ collectNames rest

/-- Insert a string into a strictly sorted list, keeping it strictly
sorted; inserting a present element is a no-op.  Folding this over a list
of names yields exactly Python `sorted(list(set(names)))`. -/
def insortDedup (x : String) : List String → List String
  | [] => [x]
  | y :: ys =>
    if x = y then y :: ys
    else if strLt x y then x :: y :: ys
    else y :: insortDedup x ys

/-- Sorted deduplication: the model of `sorted(list(set(l)))`. -/
def sortedDedup (l : List String) : List String :=
  l.foldl (fun acc s => insortDedup s acc) []

/-- Model of `get_imports_for_file` (app.py lines 34-46): collect the
top-level name of every import statement into a set and return the sorted
list; an unparseable file yields the empty list via the `except` branch. -/
def getImportsForFile : PyContent → List String
  | none => []
  | some stmts => sortedDedup (collectNames stmts)

/-! ### The graph

A networkx `DiGraph` restricted to the operations the source uses: node
insertion with or without a `type` attribute, edge insertion, node lookup.
`add_node` on a present identifier keeps its position and overwrites the
attributes given; `add_edge` inserts missing endpoints without
attributes and ignores a duplicate edge.
-/

/-- The `type` attribute values the source assigns. -/
inductive NodeType : Type where
  | folder
  | python_file
  | other_file
  | dependency
deriving DecidableEq

/-- A directed graph: nodes in insertion order (identifier with optional
`type` attribute) and edges in insertion order. -/
structure Graph : Type where
  nodes : List (String × Option NodeType)
  edges : List (String × String)
deriving DecidableEq

def emptyGraph : Graph := ⟨[], []⟩

/-- networkx `G.has_node`. -/
def Graph.hasNode (g : Graph) (id : String) : Bool :=
  g.nodes.any (fun p => p.1 = id)

/-- The current `type` attribute of a node (`G.nodes[id].get('type')`);
`none` both for an absent node and for a node without the attribute. -/
def Graph.typeOf (g : Graph) (id : String) : Option NodeType :=
  match g.nodes.find? (fun p => p.1 = id) with
  | some p => p.2
  | none => none

/-- networkx `G.add_node(id, type=t)`: update the attribute in place if
the node exists, append it otherwise. -/
def addNodeT (g : Graph) (id : String) (t : NodeType) : Graph :=
  if g.hasNode id then
    { g with nodes := g.nodes.map (fun p => if p.1 = id then (p.1, some t) else p) }
  else
    { g with nodes := g.nodes ++ [(id, some t)] }

/-- networkx `G.add_node(id)` with no attributes (and the node creation
performed implicitly by `G.add_edge`): a no-op on a present node. -/
def addNodeBare (g : Graph) (id : String) : Graph :=
  if g.hasNode id then g else { g with nodes := g.nodes ++ [(id, none)] }

/-- networkx `G.add_edge(u, v)`: missing endpoints are created without
attributes, a duplicate edge is ignored. -/
def addEdge (g : Graph) (u v : String) : Graph :=
  let g1 := addNodeBare (addNodeBare g u) v
  if (u, v) ∈ g1.edges then g1 else { g1 with edges := g1.edges ++ [(u, v)] }

/-! ### Directory trees

A materialized project directory: a name, the regular files it contains
(name and parse result) and its subdirectories.  `FSDirs` is a list of
`FSDir`, spelled out as a mutual inductive so that every traversal is
structural.  `os.listdir` enumerates file names then directory names.
-/

mutual
inductive FSDir : Type where
  | mk (name : String) (files : List (String × PyContent)) (subdirs : FSDirs)
inductive FSDirs : Type where
  | nil : FSDirs
  | cons (d : FSDir) (ds : FSDirs) : FSDirs
end

def FSDir.name : FSDir → String
  | .mk n _ _ => n

def FSDir.files : FSDir → List (String × PyContent)
  | .mk _ fs _ => fs

def FSDir.subdirs : FSDir → FSDirs
  | .mk _ _ ds => ds

def FSDirs.names : FSDirs → List String
  | .nil => []
  | .cons d ds => d.name :: FSDirs.names ds

/-- File names of a directory, in storage order. -/
def FSDir.fileNames (d : FSDir) : List String := d.files.map (fun f => f.1)

/-- The `os.listdir` enumeration of a directory: files then folders. -/
def listdirNames (d : FSDir) : List String := d.fileNames ++ d.subdirs.names

/-- Look up a subdirectory by name (the model of `os.path.isdir` relative
to the parent directory, and of descending into a named child). -/
def findSubdir : FSDirs → String → Option FSDir
  | .nil, _ => none
  | .cons d ds, n => if d.name = n then some d else findSubdir ds n

/-- Look up a regular file by name. -/
def findFile : List (String × PyContent) → String → Option PyContent
  | [], _ => none
  | f :: fs, n => if f.1 = n then some f.2 else findFile fs n

/-- The directory filter of `build_full_dependency_graph` (app.py lines
53 and 64): keep a subdirectory unless its name starts with `.` or is
`__pycache__`. -/
def keptDirName (n : String) : Bool :=
  !(strStartsWith n ".") && !(n = "__pycache__")

/-- The node type `build_full_dependency_graph` assigns to a file
(app.py line 61). -/
def fileNodeType (n : String) : NodeType :=
  if strEndsWith n ".py" then .python_file else .other_file

/-! ### Pass 1 of the builder: nodes from the tree walk

`build_full_dependency_graph` walks the tree twice with `os.walk`
(top-down, pruning the `dirnames` list in place).  At each directory the
first pass adds one `folder` node per kept subdirectory and one file node
per file — the `filenames` list is not filtered — and then descends into
the kept subdirectories in order (app.py lines 52-62).
-/

mutual
def pass1Dir (pid : String) (d : FSDir) : List (String × NodeType) :=
  match d with
  | .mk _ files subdirs =>
    pass1DirNames pid subdirs
      ++ files.map (fun f => (pathJoin pid f.1, fileNodeType f.1))
      ++ pass1Dirs pid subdirs
termination_by structural d

/-- The `for dirname in dirnames` loop of the first pass. -/
def pass1DirNames (pid : String) (ds : FSDirs) : List (String × NodeType) :=
  match ds with
  | .nil => []
  | .cons d rest =>
    (if keptDirName d.name then [(pathJoin pid d.name, NodeType.folder)] else [])
      ++ pass1DirNames pid rest
termination_by structural ds

/-- Descent of the first walk into the kept subdirectories. -/
def pass1Dirs (pid : String) (ds : FSDirs) : List (String × NodeType) :=
  match ds with
  | .nil => []
  | .cons d rest =>
    (if keptDirName d.name then pass1Dir (pathJoin pid d.name) d else [])
      ++ pass1Dirs pid rest
termination_by structural ds
end

/-! ### Pass 2 of the builder: edges and dependency nodes

The second walk (app.py lines 63-78) adds, per directory, a containment
edge to every kept subdirectory and to every file, and for a `.py` file
runs the Import Extractor and adds a `dependency` node plus an import
edge per extracted name.  The interleaved graph mutations are recorded as
a list of operations.
-/

inductive BuildOp : Type where
  | addN (id : String) (t : NodeType) : BuildOp
  | addE (u v : String) : BuildOp
deriving DecidableEq

/-- Apply one recorded mutation to the graph. -/
def applyOp (g : Graph) : BuildOp → Graph
  | .addN id t => addNodeT g id t
  | .addE u v => addEdge g u v

def applyOps (g : Graph) (ops : List BuildOp) : Graph :=
  ops.foldl applyOp g

/-- The `for imp in imports` loop (app.py lines 76-78). -/
def importOps (fid : String) : List String → List BuildOp
  | [] => []
  | imp :: rest => .addN imp .dependency :: .addE fid imp :: importOps fid rest

/-- The `for filename in filenames` loop of the second pass
(app.py lines 70-78). -/
def fileOps (pid : String) : List (String × PyContent) → List BuildOp
  | [] => []
  | f :: rest =>
    BuildOp.addE pid (pathJoin pid f.1)
      :: ((if strEndsWith f.1 ".py"
            then importOps (pathJoin pid f.1) (getImportsForFile f.2)
            else [])
          ++ fileOps pid rest)

mutual
def pass2Dir (pid : String) (d : FSDir) : List BuildOp :=
  match d with
  | .mk _ files subdirs =>
    pass2DirNames pid subdirs ++ fileOps pid files ++ pass2Dirs pid subdirs
termination_by structural d

/-- The `for dirname in dirnames` loop of the second pass. -/
def pass2DirNames (pid : String) (ds : FSDirs) : List BuildOp :=
  match ds with
  | .nil => []
  | .cons d rest =>
    (if keptDirName d.name then [BuildOp.addE pid (pathJoin pid d.name)] else [])
      ++ pass2DirNames pid rest
termination_by structural ds

/-- Descent of the second walk into the kept subdirectories. -/
def pass2Dirs (pid : String) (ds : FSDirs) : List BuildOp :=
  match ds with
  | .nil => []
  | .cons d rest =>
    (if keptDirName d.name then pass2Dir (pathJoin pid d.name) d else [])
      ++ pass2Dirs pid rest
termination_by structural ds
end

/-- The graph after line 51 and the first walk: the root node (typed
`folder`) followed by every node of pass 1. -/
def phase1Graph (d : FSDir) : Graph :=
  (pass1Dir d.name d).foldl (fun g p => addNodeT g p.1 p.2)
    (addNodeT emptyGraph d.name .folder)

/-- Model of `build_full_dependency_graph` (app.py lines 48-79) on a
materialized root directory whose base name is `d.name`. -/
def buildFullDependencyGraph (d : FSDir) : Graph :=
  applyOps (phase1Graph d) (pass2Dir d.name d)

/-- The identifiers inserted as `dependency` nodes during pass 2. -/
def depNames (d : FSDir) : List String :=
  (pass2Dir d.name d).filterMap (fun op =>
    match op with
    | .addN id _ => some id
    | .addE _ _ => none)

/-- Model of `build_full_dependency_graph` on a root path that may not
exist: `os.walk` on a missing (or unreadable) directory invokes its
`onerror` handler, which is `None` by default, and yields nothing, so
only the root node added on line 51 remains.  The root path argument is
therefore either a materialized directory or `none` for a missing one. -/
def buildFullDependencyGraphOpt (rootName : String) : Option FSDir → Graph
  | some d => buildFullDependencyGraph d
  | none => addNodeT emptyGraph rootName .folder

/-! ### View derivation inside `upload_project`

Lines 182-188 copy every non-`dependency` node into a fresh graph and
then every edge whose endpoints are both present; lines 190-204 build the
search map: first, per graph edge whose target is a `dependency` node, an
entry keyed by the dependency name accumulating the importing files;
then, per file node, an entry keyed by its base name accumulating the
full identifiers.  A dict entry created once keeps its `type` tag.
-/

/-- networkx `fs_graph.add_node(node, **data)` with the attribute dict of
the source node spread back in. -/
def addNodeData (g : Graph) (id : String) : Option NodeType → Graph
  | some t => addNodeT g id t
  | none => addNodeBare g id

/-- Model of app.py lines 182-188: the filesystem-only subgraph. -/
def deriveFsSubgraph (g : Graph) : Graph :=
  let g1 := g.nodes.foldl
    (fun acc p => if p.2 ≠ some NodeType.dependency then addNodeData acc p.1 p.2 else acc)
    emptyGraph
  g.edges.foldl
    (fun acc e => if acc.hasNode e.1 && acc.hasNode e.2 then addEdge acc e.1 e.2 else acc)
    g1

/-- One value of the search map: the `type` tag it was created with and
the accumulated node list. -/
structure SearchEntry : Type where
  kind : String
  nodes : List String
deriving DecidableEq

/-- The two-line dict idiom of app.py lines 194-196 and 202-204: create
the entry (with the given tag and an empty list) when the key is new,
then append one node identifier to its list. -/
def smAdd (m : List (String × SearchEntry)) (key kind nodeId : String) :
    List (String × SearchEntry) :=
  if m.any (fun p => p.1 = key) then
    m.map (fun p => if p.1 = key then (p.1, ⟨p.2.kind, p.2.nodes ++ [nodeId]⟩) else p)
  else m ++ [(key, ⟨kind, [nodeId]⟩)]

/-- Python `key in dict` lookup. -/
def smLookup (m : List (String × SearchEntry)) (k : String) : Option SearchEntry :=
  match m.find? (fun p => p.1 = k) with
  | some p => some p.2
  | none => none

/-- The edges grouped by source node, sources in insertion order: the
iteration order of networkx `G.edges(data=True)`. -/
def edgesFromSources (edges : List (String × String)) :
    List (String × Option NodeType) → List (String × String)
  | [] => []
  | p :: rest => edges.filter (fun e => e.1 = p.1) ++ edgesFromSources edges rest

def edgesInIterOrder (g : Graph) : List (String × String) :=
  edgesFromSources g.edges g.nodes

/-- Model of app.py lines 190-204: the search map of `upload_project`. -/
def deriveSearchMap (g : Graph) : List (String × SearchEntry) :=
  let m1 := (edgesInIterOrder g).foldl
    (fun m e => if g.typeOf e.2 = some NodeType.dependency then smAdd m e.2 "dependency" e.1 else m)
    []
  g.nodes.foldl
    (fun m p =>
      if p.2 = some NodeType.python_file || p.2 = some NodeType.other_file
        then smAdd m (basename p.1) "file" p.1 else m)
    m1

/-! ### Effective root resolution

`_get_effective_root` (app.py lines 20-29) repeatedly lists the current
directory, filters out entries starting with `.` and the `__MACOSX`
entry, and descends while exactly one entry remains and that entry is a
directory.
-/

/-- The visibility filter of `_get_effective_root` (app.py line 24). -/
def uploadVisibleName (n : String) : Bool :=
  !(strStartsWith n ".") && !(n = "__MACOSX")

/-- The `visible_items` list of one loop iteration. -/
def visibleItems (d : FSDir) : List String :=
  (listdirNames d).filter uploadVisibleName

/-- The loop condition and descent target in one step: `some d2` exactly
when there is exactly one visible item and it is the subdirectory `d2`. -/
def singleVisibleDir (d : FSDir) : Option FSDir :=
  match visibleItems d with
  | [n] => findSubdir d.subdirs n
  | _ => none

/-- Size bound used only for termination of the descent: a subdirectory
found by name is structurally smaller than the list holding it. -/
theorem sizeOf_findSubdir :
    ∀ (ds : FSDirs) (n : String) (d2 : FSDir), findSubdir ds n = some d2 →
      sizeOf d2 < sizeOf ds
  | .nil, n, d2, h => by simp [findSubdir] at h
  | .cons d rest, n, d2, h => by
    rw [findSubdir] at h
    by_cases hd : d.name = n
    · simp [hd] at h
      subst h
      simp [FSDirs.cons.sizeOf_spec]
      omega
    · simp [hd] at h
      have := sizeOf_findSubdir rest n d2 h
      simp [FSDirs.cons.sizeOf_spec]
      omega

/-- Size bound for the effective-root descent. -/
theorem sizeOf_singleVisibleDir (d : FSDir) (d2 : FSDir)
    (h : singleVisibleDir d = some d2) : sizeOf d2 < sizeOf d := by
  rw [singleVisibleDir] at h
  split at h
  · cases d with
    | mk n fs ds =>
      have h1 := sizeOf_findSubdir _ _ _ h
      simp only [FSDir.subdirs] at h1
      simp [FSDir.mk.sizeOf_spec]
      omega
  · exact absurd h (by simp)

/-- Model of `_get_effective_root` (app.py lines 20-29). -/
def getEffectiveRoot (d : FSDir) : FSDir :=
  match h : singleVisibleDir d with
  | some d2 => getEffectiveRoot d2
  | none => d
termination_by sizeOf d
decreasing_by exact sizeOf_singleVisibleDir d d2 h

/-! ### The hierarchical report generators

`generate_numbered_report` and `generate_json_report_recursive`
(app.py lines 81-146) both list a directory as
`sorted(non-hidden entries)`, partition into `py_files` (names ending
`.py`) and `dirs` (entries that are directories), and iterate
`py_files + dirs` with a sibling counter starting at 1; the ordinal of an
item is `prefix + str(counter) + "."`.  A `.py` item gets its imports
listed (opening a directory path raises and the extractor returns `[]`),
a directory item gets a recursive rendering under its ordinal.  The
nested dict is modelled as an association list in assignment order; the
ordinals of one level are pairwise distinct, so no key is assigned
twice.
-/

/-- Stable insertion into a `≤`-sorted list. -/
def insertLe (x : String) : List String → List String
  | [] => [x]
  | y :: ys => if strLe x y then x :: y :: ys else y :: insertLe x ys

/-- Python `sorted` on strings (ascending lexicographic order). -/
def sortStr (l : List String) : List String := l.foldr insertLe []

/-- The `items` list of one report level (app.py lines 84 and 113). -/
def sortedItems (d : FSDir) : List String :=
  sortStr ((listdirNames d).filter (fun n => !(strStartsWith n ".")))

/-- The `py_files` partition (app.py lines 87 and 117). -/
def pyFilesOf (d : FSDir) : List String :=
  (sortedItems d).filter (fun n => strEndsWith n ".py")

/-- The `dirs` partition (app.py lines 88 and 118). -/
def dirsOf (d : FSDir) : List String :=
  (sortedItems d).filter (fun n => (findSubdir d.subdirs n).isSome)

/-- The `get_imports_for_file(full_path)` call on a listed item: a
directory path makes `open` raise, which the extractor catches, so a
directory item yields no imports. -/
def importsForItem (d : FSDir) (item : String) : List String :=
  match findSubdir d.subdirs item with
  | some _ => []
  | none =>
    match findFile d.files item with
    | some c => getImportsForFile c
    | none => []

/-- Python `"    " * level`. -/
def indentStr (level : Nat) : String := String.join (List.replicate level "    ")

/-- The import lines of one `.py` item in the flat report
(app.py lines 98-103). -/
def importLinesFrom (itemPfx : String) (lvl : Nat) (counter : Nat) :
    List String → List String
  | [] => []
  | imp :: rest =>
    (indentStr lvl ++ (itemPfx ++ Nat.repr counter ++ ".") ++ " " ++ imp)
      :: importLinesFrom itemPfx lvl (counter + 1) rest

/-- The value stored per import in the nested report:
`{"name": imp, "type": "import"}`. -/
structure JImport : Type where
  name : String
  typ : String
deriving DecidableEq

/-- The `imports` dict of one `.py` item (app.py lines 130-135). -/
def importDictFrom (itemPfx : String) (counter : Nat) :
    List String → List (String × JImport)
  | [] => []
  | imp :: rest =>
    (itemPfx ++ Nat.repr counter ++ ".", ⟨imp, "import"⟩)
      :: importDictFrom itemPfx (counter + 1) rest

/-- One entry of the nested report: the item name, the optional
`imports` dict and the optional `files` dict. -/
inductive JEntry : Type where
  | mk (name : String) (imports : Option (List (String × JImport)))
      (files : Option (List (String × JEntry))) : JEntry

def JEntry.name : JEntry → String
  | .mk n _ _ => n

def JEntry.imports : JEntry → Option (List (String × JImport))
  | .mk _ i _ => i

def JEntry.files : JEntry → Option (List (String × JEntry))
  | .mk _ _ f => f

/-- Size bound for the report recursion: a subdirectory found by name is
smaller than its parent directory. -/
theorem sizeOf_findSubdir_dir (d : FSDir) (n : String) (d2 : FSDir)
    (h : findSubdir d.subdirs n = some d2) : sizeOf d2 < sizeOf d := by
  cases d with
  | mk nm fs ds =>
    have h1 := sizeOf_findSubdir _ _ _ h
    simp only [FSDir.subdirs] at h1
    simp [FSDir.mk.sizeOf_spec]
    omega

mutual
/-- Model of `generate_numbered_report` (app.py lines 81-107). -/
def generateNumberedReport (d : FSDir) (pfx : String) (level : Nat) : List String :=
  genNumberedLoop d (pyFilesOf d ++ dirsOf d) 1 pfx level
termination_by (sizeOf d, 1, 0)

/-- The `for item in py_files + dirs` loop of the flat report. -/
def genNumberedLoop (d : FSDir) (items : List String) (counter : Nat)
    (pfx : String) (level : Nat) : List String :=
  match items with
  | [] => []
  | item :: rest =>
    let itemPfx := pfx ++ Nat.repr counter ++ "."
    let line := indentStr level ++ itemPfx ++ " " ++ item
    let impLines :=
      if strEndsWith item ".py" then
        let imps := importsForItem d item
        if imps.isEmpty then [] else importLinesFrom itemPfx (level + 1) 1 imps
      else []
    let subLines :=
      match hsub : findSubdir d.subdirs item with
      | some d2 => generateNumberedReport d2 itemPfx (level + 1)
      | none => []
    line :: (impLines ++ subLines ++ genNumberedLoop d rest (counter + 1) pfx level)
termination_by (sizeOf d, 0, items.length)
decreasing_by
  all_goals first
    | exact Prod.Lex.right _ (Prod.Lex.right _ (by simp))
    | exact Prod.Lex.left _ _ (sizeOf_findSubdir_dir _ _ _ (by assumption))
end

mutual
/-- Model of `generate_json_report_recursive` (app.py lines 109-146). -/
def generateJsonReportRecursive (d : FSDir) (pfx : String) (level : Nat) :
    List (String × JEntry) :=
  genJsonLoop d (pyFilesOf d ++ dirsOf d) 1 pfx level
termination_by (sizeOf d, 2, 0)

/-- The `for item in py_files + dirs` loop of the nested report. -/
def genJsonLoop (d : FSDir) (items : List String) (counter : Nat)
    (pfx : String) (level : Nat) : List (String × JEntry) :=
  match items with
  | [] => []
  | item :: rest =>
    let itemPfx := pfx ++ Nat.repr counter ++ "."
    (itemPfx, jEntryFor d item itemPfx level)
      :: genJsonLoop d rest (counter + 1) pfx level
termination_by (sizeOf d, 1, items.length)
decreasing_by
  all_goals first
    | exact Prod.Lex.right _ (Prod.Lex.right _ (by simp))
    | exact Prod.Lex.right _ (Prod.Lex.left _ _ (by omega))

/-- The entry built for one item of the nested report
(app.py lines 125-143). -/
def jEntryFor (d : FSDir) (item : String) (itemPfx : String) (level : Nat) : JEntry :=
  JEntry.mk item
    (if strEndsWith item ".py" then
      let imps := importsForItem d item
      if imps.isEmpty then none else some (importDictFrom itemPfx 1 imps)
    else none)
    (match hsub : findSubdir d.subdirs item with
     | some d2 => some (generateJsonReportRecursive d2 itemPfx (level + 1))
     | none => none)
termination_by (sizeOf d, 0, 0)
decreasing_by
  exact Prod.Lex.left _ _ (sizeOf_findSubdir_dir _ _ _ (by assumption))
end

/-- Renders the nested report in the line format of the flat report:
for each entry the item line under its key, then the import lines under
their keys, then the recursively rendered `files` dict.  The claim that
both reports number identically is formalised as: this rendering of the
nested report reproduces the flat report exactly. -/
def flattenJson (level : Nat) (dict : List (String × JEntry)) : List String :=
  match dict with
  | [] => []
  | (k, .mk nm imps files) :: rest =>
    (indentStr level ++ k ++ " " ++ nm)
      :: ((match imps with
           | some l => l.map (fun p => indentStr (level + 1) ++ p.1 ++ " " ++ p.2.name)
           | none => [])
          ++ (match files with
              | some sub => flattenJson (level + 1) sub
              | none => [])
          ++ flattenJson level rest)
termination_by sizeOf dict

/-! ### Auxiliary definitions used to state the claims -/

mutual
/-- The tree with every subdirectory dropped that the builder walk
prunes (name starting with `.`, or `__pycache__`), at every depth;
files are left untouched. -/
def pruneDir (d : FSDir) : FSDir :=
  match d with
  | .mk n files ds => .mk n files (pruneDirs ds)
termination_by structural d

def pruneDirs (ds : FSDirs) : FSDirs :=
  match ds with
  | .nil => .nil
  | .cons d rest =>
    if keptDirName d.name then .cons (pruneDir d) (pruneDirs rest)
    else pruneDirs rest
termination_by structural ds
end

mutual
/-- Every file the two walks visit: its node identifier, its bare name
and its parse result, skipping pruned subdirectories. -/
def allFilesDir (pid : String) (d : FSDir) : List (String × String × PyContent) :=
  match d with
  | .mk _ files ds =>
    files.map (fun f => (pathJoin pid f.1, f.1, f.2)) ++ allFilesDirs pid ds
termination_by structural d

def allFilesDirs (pid : String) (ds : FSDirs) : List (String × String × PyContent) :=
  match ds with
  | .nil => []
  | .cons d rest =>
    (if keptDirName d.name then allFilesDir (pathJoin pid d.name) d else [])
      ++ allFilesDirs pid rest
termination_by structural ds
end

/-- The session guard of `analyze_node` (app.py lines 218-225): the
session store maps a session id to its materialized directory; a missing
directory is answered with the 404 error before any graph is built. -/
def analyzeSessionLookup (store : List (String × FSDir)) (sessionId : String) :
    Except String FSDir :=
  match store.find? (fun p => p.1 = sessionId) with
  | none => Except.error "Session not found or expired."
  | some p => Except.ok p.2

/-! ### Concrete inputs used by the claims -/

/-- The project of the end-to-end example: `proj/a.py` importing `os`
and `sys`, and `proj/sub/b.py` importing `os`. -/
def projTree : FSDir :=
  .mk "proj"
    [("a.py", some [.imp [("os", [])], .imp [("sys", [])]])]
    (.cons (.mk "sub" [("b.py", some [.imp [("os", [])]])] .nil) .nil)

/-- A project with a hidden file at the top level. -/
def hiddenFileTree : FSDir :=
  .mk "proj" [(".hidden", none)] .nil

/-- A project whose root directory is named like the module its only
file imports. -/
def osRootTree : FSDir :=
  .mk "os" [("a.py", some [.imp [("os", [])]])] .nil

/-- A project with one unparseable file next to a well-formed sibling. -/
def mixedTree : FSDir :=
  .mk "proj"
    [("bad.py", none), ("good.py", some [.imp [("os", [])]])]
    .nil

/-- A project containing a subdirectory whose name ends in `.py`. -/
def dirPyTree : FSDir :=
  .mk "proj"
    [("a.py", some [.imp [("os", [])]])]
    (.cons (.mk "sub.py" [("c.py", some [])] .nil) .nil)

/-- The subdirectory `P` of the wrapper example, with several entries. -/
def wrappedInner : FSDir :=
  .mk "P" [("x.py", some []), ("y.txt", none)] .nil

/-- A wrapper directory holding only the subdirectory `P`. -/
def wrappedTree : FSDir :=
  .mk "root" [] (.cons wrappedInner .nil)

/-- A small graph exercising the subgraph filter. -/
def smallGraph : Graph :=
  { nodes := [("a", some .folder), ("b", some .dependency), ("c", some .python_file)],
    edges := [("a", "b"), ("a", "c"), ("c", "b"), ("a", "a")] }

/-- The subdirectory of `dirPyTree` whose name ends in `.py`. -/
def dirPySub : FSDir := .mk "sub.py" [("c.py", some [])] .nil

/-- The decimal digit list of a natural number, most significant first:
the reference shape of `Nat.toDigitsCore` at base 10 used to reason
about the ordinal strings `str(counter)` of the reports. -/
def decDigits (n : Nat) : List Char :=
  if h : n < 10 then [Nat.digitChar n]
  else decDigits (n / 10) ++ [Nat.digitChar (n % 10)]
termination_by n
decreasing_by exact Nat.div_lt_self (by omega) (by omega)

/-! ## Theorems -/

/-- Claim C1: for the project tree `proj` with `proj/a.py` importing
`os` and `sys` and `proj/sub/b.py` importing `os`,
`build_full_dependency_graph` produces exactly the six claimed nodes
with the claimed types and exactly the six claimed edges (the lists
below are the insertion order of the build; the claim reads them as
sets), and the search map of `upload_project` sends the key `os` to the
tag `dependency` with the node list `[proj/a.py, proj/sub/b.py]`. -/
theorem c1_end_to_end :
    (buildFullDependencyGraph projTree).nodes =
      [("proj", some NodeType.folder), ("proj/sub", some NodeType.folder),
       ("proj/a.py", some NodeType.python_file),
       ("proj/sub/b.py", some NodeType.python_file),
       ("os", some NodeType.dependency), ("sys", some NodeType.dependency)]
    ∧ (buildFullDependencyGraph projTree).edges =
      [("proj", "proj/sub"), ("proj", "proj/a.py"), ("proj/a.py", "os"),
       ("proj/a.py", "sys"), ("proj/sub", "proj/sub/b.py"),
       ("proj/sub/b.py", "os")]
    ∧ smLookup (deriveSearchMap (buildFullDependencyGraph projTree)) "os" =
      some ⟨"dependency", ["proj/a.py", "proj/sub/b.py"]⟩ := by
  refine ⟨?_, ?_, ?_⟩ <;> decide

/-- Claim C3, counterexample: a file whose name starts with the hidden
marker `.` does contribute a node and an edge to the graph — only the
directory list is filtered by the walk (app.py line 53), the file list
is not. -/
theorem c3_counterexample :
    (buildFullDependencyGraph hiddenFileTree).typeOf "proj/.hidden" =
      some NodeType.other_file
    ∧ ("proj", "proj/.hidden") ∈ (buildFullDependencyGraph hiddenFileTree).edges := by
  refine ⟨?_, ?_⟩ <;> decide

/-- Claim C4, counterexample: on a missing root the builder does not
fail and does not return an empty result — `os.walk` yields nothing and
the unconditional `add_node` of line 51 leaves a one-node graph. -/
theorem c4_counterexample :
    (buildFullDependencyGraphOpt "proj" none).nodes = [("proj", some NodeType.folder)]
    ∧ (buildFullDependencyGraphOpt "proj" none).nodes ≠ [] := by
  refine ⟨?_, ?_⟩ <;> decide

/-- Claim C8, counterexample: the root node `os` is first inserted with
type `folder`, and the later `add_node('os', type='dependency')` of
the import loop overwrites that type — networkx updates attributes of
an existing node in place. -/
theorem c8_counterexample :
    (phase1Graph osRootTree).typeOf "os" = some NodeType.folder
    ∧ (buildFullDependencyGraph osRootTree).typeOf "os" = some NodeType.dependency := by
  refine ⟨?_, ?_⟩ <;> decide

/-- Claim C4, amended: the not-found condition for a missing root is
enforced by the callers — `analyze_node` looks the session directory up
and answers with the error before any graph is built — while
`build_full_dependency_graph` itself, applied to a missing root, returns
a graph holding exactly the unconditionally inserted root node and no
edges. -/
theorem c4_missing_root (store : List (String × FSDir)) (sid : String)
    (h : store.find? (fun p => p.1 = sid) = none) :
    analyzeSessionLookup store sid = Except.error "Session not found or expired."
    ∧ ∀ name : String,
        (buildFullDependencyGraphOpt name none).nodes = [(name, some NodeType.folder)]
        ∧ (buildFullDependencyGraphOpt name none).edges = [] := by
  refine ⟨?_, fun name => ⟨rfl, rfl⟩⟩
  rw [analyzeSessionLookup, h]

/-- Witness for C4 at a concrete empty session store. -/
theorem c4_missing_root_witness :
    analyzeSessionLookup [] "s" = Except.error "Session not found or expired."
    ∧ ∀ name : String,
        (buildFullDependencyGraphOpt name none).nodes = [(name, some NodeType.folder)]
        ∧ (buildFullDependencyGraphOpt name none).edges = [] :=
  c4_missing_root [] "s" rfl

/-- Claim C9: effective-root resolution descends into the single visible
entry when it is a directory and repeats there; when there is no such
single visible directory entry (zero or several visible entries, or a
single visible file) the directory itself is the effective root. -/
theorem c9_effective_root :
    (∀ (d : FSDir) (n : String) (d2 : FSDir),
        visibleItems d = [n] → findSubdir d.subdirs n = some d2 →
        getEffectiveRoot d = getEffectiveRoot d2)
    ∧ (∀ d : FSDir,
        ¬(∃ n d2, visibleItems d = [n] ∧ findSubdir d.subdirs n = some d2) →
        getEffectiveRoot d = d) := by
  have key : ∀ (d : FSDir),
      (∀ d2, singleVisibleDir d = some d2 → getEffectiveRoot d = getEffectiveRoot d2)
      ∧ (singleVisibleDir d = none → getEffectiveRoot d = d) := by
    intro d
    constructor
    · intro d2 h
      rw [getEffectiveRoot]
      split
      · rename_i d3 h3
        rw [h3] at h
        cases h
        rfl
      · rename_i h3
        rw [h3] at h
        cases h
    · intro h
      rw [getEffectiveRoot]
      split
      · rename_i d3 h3
        rw [h3] at h
        cases h
      · rfl
  constructor
  · intro d n d2 h1 h2
    refine (key d).1 d2 ?_
    rw [singleVisibleDir, h1]
    simpa using h2
  · intro d h
    refine (key d).2 ?_
    rw [singleVisibleDir]
    split
    · rename_i n hn
      cases hfs : findSubdir d.subdirs n with
      | none => rfl
      | some d2 => exact absurd ⟨n, d2, hn, hfs⟩ h
    · rfl

/-- Witness for C9: a wrapper directory with the single visible entry
`P`, a directory with several entries, resolves to `P`. -/
theorem c9_effective_root_witness : getEffectiveRoot wrappedTree = wrappedInner := by
  have h1 := c9_effective_root.1 wrappedTree "P" wrappedInner rfl rfl
  have h2 := c9_effective_root.2 wrappedInner (by rintro ⟨n, d2, hn, hfs⟩; cases hn)
  rw [h1, h2]

/-- The executable comparison agrees with the lexicographic order on
character lists. -/
theorem charsLt_lex : ∀ l1 l2 : List Char, charsLt l1 l2 = true ↔ l1 < l2
  | [], [] => by
    rw [charsLt]
    constructor
    · intro h; cases h
    · intro h; cases h
  | [], b :: bs => by
    rw [charsLt]
    exact ⟨fun _ => List.Lex.nil, fun _ => by trivial⟩
  | a :: as, [] => by
    rw [charsLt]
    constructor
    · intro h; cases h
    · intro h; cases h
  | a :: as, b :: bs => by
    rw [charsLt]
    rcases lt_trichotomy a b with h | h | h
    · simp only [if_pos h]
      exact ⟨fun _ => List.Lex.rel h, fun _ => by trivial⟩
    · subst h
      simp only [if_neg (lt_irrefl a)]
      rw [charsLt_lex as bs]
      constructor
      · exact fun h3 => List.Lex.cons h3
      · intro h3
        cases h3 with
        | cons h3 => exact h3
        | rel h3 => exact absurd h3 (lt_irrefl a)
    · rw [if_neg (lt_asymm h), if_pos h]
      constructor
      · intro h3; cases h3
      · intro h3
        cases h3 with
        | cons h3 => exact absurd h (lt_irrefl a)
        | rel h3 => exact absurd h3 (lt_asymm h)

/-- The Python string comparison agrees with the lexicographic order on
the character lists of the strings. -/
theorem strLt_iff (s t : String) : strLt s t = true ↔ s.data < t.data :=
  charsLt_lex s.data t.data

/-- Membership across one sorted insertion. -/
theorem mem_insortDedup (a x : String) :
    ∀ l : List String, a ∈ insortDedup x l ↔ a = x ∨ a ∈ l
  | [] => by simp [insortDedup]
  | y :: ys => by
    rw [insortDedup]
    by_cases h1 : x = y
    · subst h1
      rw [if_pos rfl]
      simp only [List.mem_cons]
      tauto
    · rw [if_neg h1]
      by_cases h2 : strLt x y
      · rw [if_pos h2]
        simp only [List.mem_cons]
      · rw [if_neg h2]
        simp only [List.mem_cons, mem_insortDedup a x ys]
        tauto

/-- Sorted insertion keeps the list strictly sorted. -/
theorem pairwise_insortDedup (x : String) :
    ∀ l : List String, l.Pairwise (fun a b => a.data < b.data) →
      (insortDedup x l).Pairwise (fun a b => a.data < b.data)
  | [], _ => by simp [insortDedup]
  | y :: ys, h => by
    rcases List.pairwise_cons.1 h with ⟨hy, hys⟩
    rw [insortDedup]
    by_cases h1 : x = y
    · rw [if_pos h1]; exact h
    · rw [if_neg h1]
      by_cases h2 : strLt x y
      · rw [if_pos h2]
        have hxy : x.data < y.data := (strLt_iff x y).1 h2
        refine List.pairwise_cons.2 ⟨?_, h⟩
        intro z hz
        rcases List.mem_cons.1 hz with rfl | hz
        · exact hxy
        · exact lt_trans hxy (hy z hz)
      · rw [if_neg h2]
        have hyx : y.data < x.data := by
          rcases lt_trichotomy x.data y.data with h3 | h3 | h3
          · exact absurd ((strLt_iff x y).2 h3) (by simpa using h2)
          · exact absurd (String.ext h3) h1
          · exact h3
        refine List.pairwise_cons.2 ⟨?_, pairwise_insortDedup x ys hys⟩
        intro z hz
        rcases (mem_insortDedup z x ys).1 hz with rfl | hz
        · exact hyx
        · exact hy z hz

/-- Membership of the sorted deduplication. -/
theorem mem_sortedDedup_aux (a : String) :
    ∀ (l acc : List String),
      a ∈ l.foldl (fun acc s => insortDedup s acc) acc ↔ a ∈ acc ∨ a ∈ l
  | [], acc => by simp
  | x :: xs, acc => by
    rw [List.foldl_cons, mem_sortedDedup_aux a xs (insortDedup x acc),
      mem_insortDedup a x acc]
    simp [List.mem_cons]
    tauto

/-- Sortedness of the sorted deduplication. -/
theorem pairwise_sortedDedup_aux :
    ∀ (l acc : List String), acc.Pairwise (fun a b => a.data < b.data) →
      (l.foldl (fun acc s => insortDedup s acc) acc).Pairwise (fun a b => a.data < b.data)
  | [], acc, h => h
  | x :: xs, acc, h =>
    pairwise_sortedDedup_aux xs (insortDedup x acc) (pairwise_insortDedup x acc h)

/-- The names collected over the statement walk. -/
theorem mem_collectNames (s : String) :
    ∀ stmts : List ImportStmt,
      s ∈ collectNames stmts ↔ ∃ st ∈ stmts, s ∈ stmtTopLevels st
  | [] => by simp [collectNames]
  | st :: rest => by
    rw [collectNames]
    simp only [List.mem_append, mem_collectNames s rest, List.mem_cons]
    constructor
    · rintro (h | ⟨st2, h2, h3⟩)
      · exact ⟨st, Or.inl rfl, h⟩
      · exact ⟨st2, Or.inr h2, h3⟩
    · rintro ⟨st2, (rfl | h2), h3⟩
      · exact Or.inl h3
      · exact Or.inr ⟨st2, h2, h3⟩

/-- Claim C2: on every parseable file the Import Extractor returns a
strictly sorted (code-point lexicographic, so deduplicated) list, and a
name is in it exactly when some import statement of the file contributes
it — the first segment of a dotted `import` path, the first segment of a
named `from` path, and nothing for a relative `from` with no module. -/
theorem c2_import_extractor (stmts : List ImportStmt) :
    ((getImportsForFile (some stmts)).Pairwise (fun a b => a.data < b.data))
    ∧ (getImportsForFile (some stmts)).Nodup
    ∧ ∀ s : String,
        s ∈ getImportsForFile (some stmts) ↔ ∃ st ∈ stmts, s ∈ stmtTopLevels st := by
  have hp : (getImportsForFile (some stmts)).Pairwise (fun a b => a.data < b.data) :=
    pairwise_sortedDedup_aux (collectNames stmts) [] (by simp)
  refine ⟨hp, ?_, ?_⟩
  · refine hp.imp ?_
    intro a b hab
    intro hEq
    subst hEq
    exact lt_irrefl _ hab
  · intro s
    rw [getImportsForFile, sortedDedup, mem_sortedDedup_aux s (collectNames stmts) []]
    simp [mem_collectNames s stmts]

/-- Node presence is existence of an attribute entry. -/
theorem hasNode_iff (g : Graph) (x : String) :
    g.hasNode x = true ↔ ∃ t, (x, t) ∈ g.nodes := by
  simp only [Graph.hasNode, List.any_eq_true, decide_eq_true_eq]
  constructor
  · rintro ⟨⟨a, b⟩, hmem, rfl⟩
    exact ⟨b, hmem⟩
  · rintro ⟨t, hmem⟩
    exact ⟨(x, t), hmem, rfl⟩

/-- Inserting a fresh node appends it. -/
theorem addNodeData_fresh (g : Graph) (id : String) (t : Option NodeType)
    (h : g.hasNode id = false) :
    addNodeData g id t = { g with nodes := g.nodes ++ [(id, t)] } := by
  cases t with
  | none => simp [addNodeData, addNodeBare, h]
  | some t0 => simp [addNodeData, addNodeT, h]

/-- Node presence in a graph extended by one appended node. -/
theorem hasNode_append (g : Graph) (e : List (String × String))
    (a : String) (b : Option NodeType) (id : String) :
    Graph.hasNode { nodes := g.nodes ++ [(a, b)], edges := e } id
      = (g.hasNode id || a = id) := by
  simp [Graph.hasNode, List.any_append]

/-- The node pass of the subgraph filter (app.py lines 183-185): with
pairwise distinct incoming identifiers, fresh to the accumulator, it
appends exactly the non-`dependency` entries and leaves edges alone. -/
theorem fsNodePass :
    ∀ (l : List (String × Option NodeType)) (acc : Graph),
      (l.map Prod.fst).Nodup →
      (∀ id, id ∈ l.map Prod.fst → acc.hasNode id = false) →
      (∀ p, p ∈ (l.foldl
          (fun acc p => if p.2 ≠ some NodeType.dependency then addNodeData acc p.1 p.2 else acc)
          acc).nodes
        ↔ p ∈ acc.nodes ∨ (p ∈ l ∧ p.2 ≠ some NodeType.dependency))
      ∧ (l.foldl
          (fun acc p => if p.2 ≠ some NodeType.dependency then addNodeData acc p.1 p.2 else acc)
          acc).edges = acc.edges
  | [], acc, _, _ => by simp
  | x :: xs, acc, hnd, hfresh => by
    rw [List.foldl_cons]
    rw [List.map_cons] at hnd
    rcases List.nodup_cons.1 hnd with ⟨hx, hxs⟩
    by_cases hdep : x.2 ≠ some NodeType.dependency
    · rw [if_pos hdep]
      have hfr : acc.hasNode x.1 = false := hfresh x.1 (by simp)
      rw [addNodeData_fresh acc x.1 x.2 hfr]
      have hfresh2 : ∀ id, id ∈ xs.map Prod.fst →
          Graph.hasNode { nodes := acc.nodes ++ [(x.1, x.2)], edges := acc.edges } id = false := by
        intro id hid
        rw [hasNode_append]
        have h1 : acc.hasNode id = false := hfresh id (by simp [hid])
        have h2 : x.1 ≠ id := fun hEq => hx (hEq ▸ hid)
        simp [h1, h2]
      have IH := fsNodePass xs { nodes := acc.nodes ++ [(x.1, x.2)], edges := acc.edges } hxs hfresh2
      refine ⟨?_, IH.2⟩
      intro p
      rw [IH.1 p]
      simp only [List.mem_append, List.mem_cons, List.not_mem_nil, or_false, Prod.mk.eta]
      constructor
      · rintro ((hp | rfl) | ⟨hp, hq⟩)
        · exact Or.inl hp
        · exact Or.inr ⟨Or.inl rfl, hdep⟩
        · exact Or.inr ⟨Or.inr hp, hq⟩
      · rintro (hp | ⟨(rfl | hp), hq⟩)
        · exact Or.inl (Or.inl hp)
        · exact Or.inl (Or.inr rfl)
        · exact Or.inr ⟨hp, hq⟩
    · rw [if_neg hdep]
      have hdep2 : x.2 = some NodeType.dependency := by
        by_contra hc
        exact hdep hc
      have IH := fsNodePass xs acc hxs (fun id hid => hfresh id (by simp [hid]))
      refine ⟨?_, IH.2⟩
      intro p
      rw [IH.1 p]
      simp only [List.mem_cons]
      constructor
      · rintro (hp | ⟨hp, hq⟩)
        · exact Or.inl hp
        · exact Or.inr ⟨Or.inr hp, hq⟩
      · rintro (hp | ⟨(rfl | hp), hq⟩)
        · exact Or.inl hp
        · exact absurd hdep2 hq
        · exact Or.inr ⟨hp, hq⟩

/-- Adding an edge whose endpoints are present appends at most the edge. -/
theorem addEdge_present (g : Graph) (u v : String)
    (hu : g.hasNode u = true) (hv : g.hasNode v = true) :
    (addEdge g u v).nodes = g.nodes
    ∧ ∀ e, e ∈ (addEdge g u v).edges ↔ e ∈ g.edges ∨ e = (u, v) := by
  have h1 : addNodeBare g u = g := by simp [addNodeBare, hu]
  have h2 : addNodeBare g v = g := by simp [addNodeBare, hv]
  rw [addEdge, h1, h2]
  by_cases hmem : (u, v) ∈ g.edges
  · rw [if_pos hmem]
    exact ⟨rfl, fun e => ⟨fun h => Or.inl h, fun h => h.elim id (fun hEq => hEq ▸ hmem)⟩⟩
  · rw [if_neg hmem]
    refine ⟨rfl, fun e => ?_⟩
    simp [List.mem_append]

/-- The edge pass of the subgraph filter (app.py lines 186-188): nodes
are untouched and exactly the incoming edges with both endpoints present
are kept (as memberships; a duplicate incoming edge is kept once). -/
theorem fsEdgePass :
    ∀ (l : List (String × String)) (acc : Graph),
      (l.foldl
        (fun acc e => if acc.hasNode e.1 && acc.hasNode e.2 then addEdge acc e.1 e.2 else acc)
        acc).nodes = acc.nodes
      ∧ ∀ e, e ∈ (l.foldl
          (fun acc e => if acc.hasNode e.1 && acc.hasNode e.2 then addEdge acc e.1 e.2 else acc)
          acc).edges
        ↔ e ∈ acc.edges ∨ (e ∈ l ∧ acc.hasNode e.1 = true ∧ acc.hasNode e.2 = true)
  | [], acc => by simp
  | x :: xs, acc => by
    rw [List.foldl_cons]
    by_cases hok : acc.hasNode x.1 && acc.hasNode x.2
    · rw [if_pos hok]
      rcases Bool.and_eq_true_iff.1 hok with ⟨hu, hv⟩
      have hadd := addEdge_present acc x.1 x.2 hu hv
      have IH := fsEdgePass xs (addEdge acc x.1 x.2)
      refine ⟨IH.1.trans hadd.1, ?_⟩
      intro e
      rw [IH.2 e, hadd.2 e]
      have hnodes : ∀ y : String, (addEdge acc x.1 x.2).hasNode y = acc.hasNode y := by
        intro y
        simp [Graph.hasNode, hadd.1]
      simp only [hnodes, List.mem_cons]
      constructor
      · rintro ((hp | rfl) | ⟨hp, hq⟩)
        · exact Or.inl hp
        · exact Or.inr ⟨Or.inl rfl, hu, hv⟩
        · exact Or.inr ⟨Or.inr hp, hq⟩
      · rintro (hp | ⟨(rfl | hp), hq⟩)
        · exact Or.inl (Or.inl hp)
        · exact Or.inl (Or.inr rfl)
        · exact Or.inr ⟨hp, hq⟩
    · rw [if_neg hok]
      have IH := fsEdgePass xs acc
      refine ⟨IH.1, ?_⟩
      intro e
      rw [IH.2 e]
      simp only [List.mem_cons]
      constructor
      · rintro (hp | ⟨hp, hq⟩)
        · exact Or.inl hp
        · exact Or.inr ⟨Or.inr hp, hq⟩
      · rintro (hp | ⟨(rfl | hp), hq, hr⟩)
        · exact Or.inl hp
        · exact absurd (by rw [hq, hr]; rfl) hok
        · exact Or.inr ⟨hp, hq, hr⟩

/-- Claim C6: for every graph with pairwise distinct node identifiers,
the filesystem-only subgraph holds exactly the nodes whose type
attribute is not `dependency`, with unchanged attributes, and exactly
the incoming edges whose two endpoints survive the filter; in
particular no `dependency` node survives. -/
theorem c6_fs_subgraph (g : Graph) (hnd : (g.nodes.map Prod.fst).Nodup) :
    (∀ p : String × Option NodeType,
        p ∈ (deriveFsSubgraph g).nodes ↔ p ∈ g.nodes ∧ p.2 ≠ some NodeType.dependency)
    ∧ (∀ n : String, (n, some NodeType.dependency) ∉ (deriveFsSubgraph g).nodes)
    ∧ (∀ e : String × String,
        e ∈ (deriveFsSubgraph g).edges ↔
          e ∈ g.edges
          ∧ (∃ t, (e.1, t) ∈ g.nodes ∧ t ≠ some NodeType.dependency)
          ∧ (∃ t, (e.2, t) ∈ g.nodes ∧ t ≠ some NodeType.dependency)) := by
  have hN := fsNodePass g.nodes emptyGraph hnd (fun id _ => rfl)
  have hE := fsEdgePass g.edges
    (g.nodes.foldl
      (fun acc p => if p.2 ≠ some NodeType.dependency then addNodeData acc p.1 p.2 else acc)
      emptyGraph)
  have hmemN : ∀ p : String × Option NodeType,
      p ∈ (deriveFsSubgraph g).nodes ↔ p ∈ g.nodes ∧ p.2 ≠ some NodeType.dependency := by
    intro p
    rw [deriveFsSubgraph]
    rw [hE.1, hN.1 p]
    simp [emptyGraph]
  refine ⟨hmemN, ?_, ?_⟩
  · intro n hn
    exact ((hmemN (n, some NodeType.dependency)).1 hn).2 rfl
  · intro e
    rw [deriveFsSubgraph]
    rw [hE.2 e]
    have hsurv : ∀ x : String,
        Graph.hasNode (g.nodes.foldl
          (fun acc p => if p.2 ≠ some NodeType.dependency then addNodeData acc p.1 p.2 else acc)
          emptyGraph) x = true
        ↔ ∃ t, (x, t) ∈ g.nodes ∧ t ≠ some NodeType.dependency := by
      intro x
      rw [hasNode_iff]
      constructor
      · rintro ⟨t, ht⟩
        rcases (hN.1 (x, t)).1 ht with h | h
        · simp [emptyGraph] at h
        · exact ⟨t, h.1, h.2⟩
      · rintro ⟨t, ht, hdep⟩
        exact ⟨t, (hN.1 (x, t)).2 (Or.inr ⟨ht, hdep⟩)⟩
    have hempty : (Graph.edges emptyGraph) = [] := rfl
    rw [hN.2]
    simp only [hempty, List.not_mem_nil, false_or, hsurv]

/-- Witness for C6 at a small concrete graph. -/
theorem c6_fs_subgraph_witness :
    (("b", some NodeType.dependency) ∉ (deriveFsSubgraph smallGraph).nodes)
    ∧ (("a", "c") ∈ (deriveFsSubgraph smallGraph).edges)
    ∧ (("a", "b") ∉ (deriveFsSubgraph smallGraph).edges) := by
  have h := c6_fs_subgraph smallGraph (by decide)
  refine ⟨h.2.1 "b", ?_, ?_⟩
  · refine (h.2.2 ("a", "c")).2 ?_
    refine ⟨by decide, ⟨some NodeType.folder, by decide, by decide⟩,
      ⟨some NodeType.python_file, by decide, by decide⟩⟩
  · intro hmem
    rcases (h.2.2 ("a", "b")).1 hmem with ⟨_, _, ⟨t, htm, htd⟩⟩
    simp [smallGraph] at htm
    exact htd htm

/-- The in-place attribute update of `add_node` keeps identifiers. -/
theorem any_fst_update (l : List (String × Option NodeType)) (id : String)
    (t : NodeType) (x : String) :
    (l.map (fun p => if p.1 = id then (p.1, some t) else p)).any (fun p => p.1 = x)
      = l.any (fun p => p.1 = x) := by
  induction l with
  | nil => rfl
  | cons q qs ih =>
    simp only [List.map_cons, List.any_cons, ih]
    have hfst : (if q.1 = id then (q.1, some t) else q).1 = q.1 := by
      split <;> rfl
    rw [hfst]

/-- Node presence is monotone under typed insertion. -/
theorem hasNode_mono_addNodeT (g : Graph) (id : String) (t : NodeType) (x : String)
    (h : g.hasNode x = true) : (addNodeT g id t).hasNode x = true := by
  rw [addNodeT]
  split
  · rw [Graph.hasNode] at h
    simp only [Graph.hasNode]
    rw [any_fst_update]
    exact h
  · simp only [Graph.hasNode, List.any_append]
    rw [Graph.hasNode] at h
    simp [h]

/-- The typed insertion makes its own identifier present. -/
theorem hasNode_addNodeT_self (g : Graph) (id : String) (t : NodeType) :
    (addNodeT g id t).hasNode id = true := by
  rw [addNodeT]
  split
  · rename_i hid
    rw [Graph.hasNode] at hid
    simp only [Graph.hasNode]
    rw [any_fst_update]
    exact hid
  · simp [Graph.hasNode, List.any_append]

/-- Node presence is monotone under bare insertion. -/
theorem hasNode_mono_addNodeBare (g : Graph) (id : String) (x : String)
    (h : g.hasNode x = true) : (addNodeBare g id).hasNode x = true := by
  rw [addNodeBare]
  split
  · exact h
  · simp only [Graph.hasNode, List.any_append]
    rw [Graph.hasNode] at h
    simp [h]

/-- Node presence is monotone under edge insertion. -/
theorem hasNode_mono_addEdge (g : Graph) (u v : String) (x : String)
    (h : g.hasNode x = true) : (addEdge g u v).hasNode x = true := by
  rw [addEdge]
  have h2 := hasNode_mono_addNodeBare (addNodeBare g u) v x
    (hasNode_mono_addNodeBare g u x h)
  split
  · exact h2
  · simpa [Graph.hasNode] using h2

/-- Node presence is monotone under every build operation. -/
theorem hasNode_mono_applyOp (g : Graph) (op : BuildOp) (x : String)
    (h : g.hasNode x = true) : (applyOp g op).hasNode x = true := by
  cases op with
  | addN id t => exact hasNode_mono_addNodeT g id t x h
  | addE u v => exact hasNode_mono_addEdge g u v x h

/-- Node presence is monotone under a list of build operations. -/
theorem hasNode_mono_applyOps :
    ∀ (ops : List BuildOp) (g : Graph) (x : String),
      g.hasNode x = true → (applyOps g ops).hasNode x = true
  | [], _, _, h => h
  | op :: rest, g, x, h =>
    hasNode_mono_applyOps rest (applyOp g op) x (hasNode_mono_applyOp g op x h)

/-- Node presence is monotone under the node fold of the first pass. -/
theorem hasNode_mono_foldl :
    ∀ (l : List (String × NodeType)) (g : Graph) (x : String),
      g.hasNode x = true →
      (l.foldl (fun g p => addNodeT g p.1 p.2) g).hasNode x = true
  | [], _, _, h => h
  | p :: rest, g, x, h => by
    rw [List.foldl_cons]
    exact hasNode_mono_foldl rest _ x (hasNode_mono_addNodeT g p.1 p.2 x h)

/-- Every node in the insertion list of the first pass is present after
folding it into the graph. -/
theorem hasNode_foldl_addNodeT :
    ∀ (l : List (String × NodeType)) (g : Graph) (id : String) (t : NodeType),
      (id, t) ∈ l →
      (l.foldl (fun g p => addNodeT g p.1 p.2) g).hasNode id = true
  | [], _, _, _, h => absurd h (List.not_mem_nil _)
  | p :: rest, g, id, t, h => by
    rw [List.foldl_cons]
    rcases List.mem_cons.1 h with rfl | h2
    · exact hasNode_mono_foldl rest _ id (hasNode_addNodeT_self g id t)
    · exact hasNode_foldl_addNodeT rest (addNodeT g p.1 p.2) id t h2

/-- Edges are monotone under every build operation. -/
theorem edges_mono_applyOp (g : Graph) (op : BuildOp) (e : String × String)
    (h : e ∈ g.edges) : e ∈ (applyOp g op).edges := by
  cases op with
  | addN id t =>
    rw [applyOp, addNodeT]
    split <;> exact h
  | addE u v =>
    rw [applyOp, addEdge]
    have he : e ∈ (addNodeBare (addNodeBare g u) v).edges := by
      rw [addNodeBare, addNodeBare]
      split <;> split <;> exact h
    split
    · exact he
    · simp only [List.mem_append]
      exact Or.inl he

/-- Edges are monotone under a list of build operations. -/
theorem edges_mono_applyOps :
    ∀ (ops : List BuildOp) (g : Graph) (e : String × String),
      e ∈ g.edges → e ∈ (applyOps g ops).edges
  | [], _, _, h => h
  | op :: rest, g, e, h =>
    edges_mono_applyOps rest (applyOp g op) e (edges_mono_applyOp g op e h)

/-- Applying a recorded edge operation makes the edge a member. -/
theorem addE_creates (g : Graph) (u v : String) :
    (u, v) ∈ (applyOp g (.addE u v)).edges := by
  rw [applyOp, addEdge]
  split
  · rename_i h
    exact h
  · simp

/-- Every recorded edge operation ends up in the final edge list. -/
theorem ops_edge_mem :
    ∀ (ops : List BuildOp) (g : Graph) (u v : String),
      BuildOp.addE u v ∈ ops → (u, v) ∈ (applyOps g ops).edges
  | [], _, _, _, h => absurd h (List.not_mem_nil _)
  | op :: rest, g, u, v, h => by
    rcases List.mem_cons.1 h with rfl | h2
    · exact edges_mono_applyOps rest (applyOp g (.addE u v)) (u, v) (addE_creates g u v)
    · exact ops_edge_mem rest (applyOp g op) u v h2

/-- An import name in the extracted list yields its recorded edge. -/
theorem importOps_mem (fid : String) :
    ∀ (l : List String) (imp : String), imp ∈ l →
      BuildOp.addE fid imp ∈ importOps fid l
  | [], _, h => absurd h (List.not_mem_nil _)
  | x :: xs, imp, h => by
    rw [importOps]
    rcases List.mem_cons.1 h with rfl | h2
    · simp
    · simp only [List.mem_cons]
      exact Or.inr (Or.inr (importOps_mem fid xs imp h2))

/-- The file loop of pass 2 records the import edges of each listed
`.py` file. -/
theorem fileOps_import_edges :
    ∀ (files : List (String × PyContent)) (pid nm : String) (c : PyContent),
      (nm, c) ∈ files → strEndsWith nm ".py" = true →
      ∀ imp ∈ getImportsForFile c,
        BuildOp.addE (pathJoin pid nm) imp ∈ fileOps pid files
  | [], _, _, _, h, _ => absurd h (List.not_mem_nil _)
  | f :: rest, pid, nm, c, h, hpy => by
    intro imp himp
    rw [fileOps]
    rcases List.mem_cons.1 h with hEq | h2
    · cases hEq
      simp only [List.mem_cons, List.mem_append]
      rw [if_pos hpy]
      exact Or.inr (Or.inl (importOps_mem (pathJoin pid nm) _ imp himp))
    · simp only [List.mem_cons, List.mem_append]
      exact Or.inr (Or.inr (fileOps_import_edges rest pid nm c h2 hpy imp himp))

mutual
/-- Every visited file contributes its node to the first pass. -/
theorem pass1_has_file (pid : String) (d : FSDir) :
    ∀ id nm c, (id, nm, c) ∈ allFilesDir pid d →
      (id, fileNodeType nm) ∈ pass1Dir pid d := by
  cases d with
  | mk n files ds =>
    intro id nm c hmem
    rw [allFilesDir] at hmem
    rw [pass1Dir]
    simp only [List.mem_append]
    rcases List.mem_append.1 hmem with h | h
    · rcases List.mem_map.1 h with ⟨f, hf, hEq⟩
      cases hEq
      exact Or.inl (Or.inr (List.mem_map.2 ⟨f, hf, rfl⟩))
    · exact Or.inr (pass1s_has_file pid ds id nm c h)
termination_by structural d

/-- Every visited file of the subdirectory list contributes its node. -/
theorem pass1s_has_file (pid : String) (ds : FSDirs) :
    ∀ id nm c, (id, nm, c) ∈ allFilesDirs pid ds →
      (id, fileNodeType nm) ∈ pass1Dirs pid ds := by
  cases ds with
  | nil =>
    intro id nm c hmem
    rw [allFilesDirs] at hmem
    cases hmem
  | cons d rest =>
    intro id nm c hmem
    rw [allFilesDirs] at hmem
    rw [pass1Dirs]
    simp only [List.mem_append]
    rcases List.mem_append.1 hmem with h | h
    · by_cases hk : keptDirName d.name
      · rw [if_pos hk] at h ⊢
        exact Or.inl (pass1_has_file (pathJoin pid d.name) d id nm c h)
      · rw [if_neg hk] at h
        cases h
    · exact Or.inr (pass1s_has_file pid rest id nm c h)
termination_by structural ds
end

mutual
/-- Every visited `.py` file contributes its import edges to pass 2. -/
theorem pass2_import_edges (pid : String) (d : FSDir) :
    ∀ id nm c, (id, nm, c) ∈ allFilesDir pid d → strEndsWith nm ".py" = true →
      ∀ imp ∈ getImportsForFile c, BuildOp.addE id imp ∈ pass2Dir pid d := by
  cases d with
  | mk n files ds =>
    intro id nm c hmem hpy imp himp
    rw [allFilesDir] at hmem
    rw [pass2Dir]
    simp only [List.mem_append]
    rcases List.mem_append.1 hmem with h | h
    · rcases List.mem_map.1 h with ⟨f, hf, hEq⟩
      cases hEq
      exact Or.inl (Or.inr (fileOps_import_edges files pid f.1 f.2 hf hpy imp himp))
    · exact Or.inr (pass2s_import_edges pid ds id nm c h hpy imp himp)
termination_by structural d

/-- Import edges of files inside the subdirectory list. -/
theorem pass2s_import_edges (pid : String) (ds : FSDirs) :
    ∀ id nm c, (id, nm, c) ∈ allFilesDirs pid ds → strEndsWith nm ".py" = true →
      ∀ imp ∈ getImportsForFile c, BuildOp.addE id imp ∈ pass2Dirs pid ds := by
  cases ds with
  | nil =>
    intro id nm c hmem
    rw [allFilesDirs] at hmem
    cases hmem
  | cons d rest =>
    intro id nm c hmem hpy imp himp
    rw [allFilesDirs] at hmem
    rw [pass2Dirs]
    simp only [List.mem_append]
    rcases List.mem_append.1 hmem with h | h
    · by_cases hk : keptDirName d.name
      · rw [if_pos hk] at h ⊢
        exact Or.inl (pass2_import_edges (pathJoin pid d.name) d id nm c h hpy imp himp)
      · rw [if_neg hk] at h
        cases h
    · exact Or.inr (pass2s_import_edges pid rest id nm c h hpy imp himp)
termination_by structural ds
end

/-- Claim C5: an unparseable file yields the empty import list, and the
build never aborts on it — every file the walk visits, parseable or not,
still contributes its node to the graph, and every visited `.py` file
contributes one import edge per extracted name, independently of the
parse results of its siblings. -/
theorem c5_graceful_degradation :
    getImportsForFile none = []
    ∧ ∀ (d : FSDir) (id nm : String) (c : PyContent),
        (id, nm, c) ∈ allFilesDir d.name d →
        (buildFullDependencyGraph d).hasNode id = true
        ∧ (strEndsWith nm ".py" = true →
            ∀ imp ∈ getImportsForFile c,
              (id, imp) ∈ (buildFullDependencyGraph d).edges) := by
  refine ⟨rfl, ?_⟩
  intro d id nm c hmem
  constructor
  · have h1 := pass1_has_file d.name d id nm c hmem
    have h2 := hasNode_foldl_addNodeT (pass1Dir d.name d)
      (addNodeT emptyGraph d.name .folder) id (fileNodeType nm) h1
    exact hasNode_mono_applyOps (pass2Dir d.name d) (phase1Graph d) id h2
  · intro hpy imp himp
    have h1 := pass2_import_edges d.name d id nm c hmem hpy imp himp
    exact ops_edge_mem (pass2Dir d.name d) (phase1Graph d) id imp h1

/-- Witness for C5 at a tree holding an unparseable file and a
well-formed sibling. -/
theorem c5_graceful_degradation_witness :
    getImportsForFile none = []
    ∧ (buildFullDependencyGraph mixedTree).hasNode "proj/bad.py" = true
    ∧ (buildFullDependencyGraph mixedTree).hasNode "proj/good.py" = true
    ∧ ("proj/good.py", "os") ∈ (buildFullDependencyGraph mixedTree).edges := by
  have hbad := (c5_graceful_degradation.2 mixedTree "proj/bad.py" "bad.py" none (by decide)).1
  have hgood := c5_graceful_degradation.2 mixedTree "proj/good.py" "good.py"
    (some [.imp [("os", [])]]) (by decide)
  exact ⟨c5_graceful_degradation.1, hbad, hgood.1,
    hgood.2 (by decide) "os" (by decide)⟩

/-- The in-place update for an identifier other than the held one keeps
the lookup result. -/
theorem find?_fst_update (m : String) (t : NodeType) (x : String) (hne : m ≠ x) :
    ∀ l : List (String × Option NodeType),
      (l.map (fun p => if p.1 = m then (p.1, some t) else p)).find? (fun p => p.1 = x)
        = l.find? (fun p => p.1 = x)
  | [] => rfl
  | q :: qs => by
    rw [List.map_cons]
    have hfst : (if q.1 = m then (q.1, some t) else q).1 = q.1 := by split <;> rfl
    by_cases hq : q.1 = x
    · rw [List.find?_cons_of_pos _ (by simpa [hfst] using hq),
        List.find?_cons_of_pos _ (by simpa using hq)]
      have : q.1 ≠ m := fun hEq => hne (hEq ▸ hq)
      simp [this]
    · rw [List.find?_cons_of_neg _ (by simpa [hfst] using hq),
        List.find?_cons_of_neg _ (by simpa using hq)]
      exact find?_fst_update m t x hne qs

/-- A typed insertion under a different identifier keeps the type. -/
theorem typeOf_addNodeT_ne (g : Graph) (m : String) (t : NodeType) (x : String)
    (hne : m ≠ x) : (addNodeT g m t).typeOf x = g.typeOf x := by
  rw [addNodeT]
  split
  · simp only [Graph.typeOf]
    rw [find?_fst_update m t x hne]
  · rename_i habs
    simp only [Graph.typeOf]
    rw [List.find?_append]
    have h2 : List.find? (fun p => p.1 = x) [(m, some t)] = none := by
      simp [hne]
    rw [h2]
    cases List.find? (fun p => p.1 = x) g.nodes <;> rfl

/-- A bare insertion keeps every lookup result: an absent identifier
reads `none` before (no entry) and after (an attribute-free entry). -/
theorem typeOf_addNodeBare (g : Graph) (id : String) (x : String) :
    (addNodeBare g id).typeOf x = g.typeOf x := by
  rw [addNodeBare]
  split
  · rfl
  · rename_i habs
    simp only [Graph.typeOf]
    rw [List.find?_append]
    by_cases hx : id = x
    · subst hx
      have h1 : List.find? (fun p => p.1 = id) g.nodes = none := by
        rw [List.find?_eq_none]
        intro p hp hpx
        refine absurd ?_ habs
        rw [Graph.hasNode, List.any_eq_true]
        exact ⟨p, hp, hpx⟩
      rw [h1]
      simp
    · have h2 : List.find? (fun p => p.1 = x) [(id, (none : Option NodeType))] = none := by
        simp [hx]
      rw [h2]
      cases List.find? (fun p => p.1 = x) g.nodes <;> rfl

/-- Edge insertion keeps every type attribute. -/
theorem typeOf_addEdge (g : Graph) (u v : String) (x : String) :
    (addEdge g u v).typeOf x = g.typeOf x := by
  rw [addEdge]
  have h1 := typeOf_addNodeBare (addNodeBare g u) v x
  have h2 := typeOf_addNodeBare g u x
  split
  · rw [h1, h2]
  · simp only [Graph.typeOf] at h1 h2 ⊢
    rw [h1, h2]

/-- Build operations whose node insertions all use other identifiers
keep the type attribute of `x`. -/
theorem typeOf_applyOps_ne :
    ∀ (ops : List BuildOp) (g : Graph) (x : String),
      (∀ id t, BuildOp.addN id t ∈ ops → id ≠ x) →
      (applyOps g ops).typeOf x = g.typeOf x
  | [], _, _, _ => rfl
  | op :: rest, g, x, h => by
    have hrest : ∀ id t, BuildOp.addN id t ∈ rest → id ≠ x := fun id t hm =>
      h id t (List.mem_cons_of_mem _ hm)
    rw [show applyOps g (op :: rest) = applyOps (applyOp g op) rest from rfl,
      typeOf_applyOps_ne rest (applyOp g op) x hrest]
    cases op with
    | addN id t => exact typeOf_addNodeT_ne g id t x (h id t (List.mem_cons_self _ _))
    | addE u v => exact typeOf_addEdge g u v x

/-- Folding first-pass nodes under other identifiers keeps the type. -/
theorem typeOf_foldl_ne :
    ∀ (l : List (String × NodeType)) (g : Graph) (x : String),
      (∀ p ∈ l, p.1 ≠ x) →
      (l.foldl (fun g p => addNodeT g p.1 p.2) g).typeOf x = g.typeOf x
  | [], _, _, _ => rfl
  | p :: rest, g, x, h => by
    rw [List.foldl_cons,
      typeOf_foldl_ne rest _ x (fun q hq => h q (List.mem_cons_of_mem _ hq))]
    exact typeOf_addNodeT_ne g p.1 p.2 x (h p (List.mem_cons_self _ _))

/-- A node identifier inserted during pass 2 is a recorded name. -/
theorem addN_mem_depNames (d : FSDir) (id : String) (t : NodeType)
    (h : BuildOp.addN id t ∈ pass2Dir d.name d) : id ∈ depNames d := by
  rw [depNames, List.mem_filterMap]
  exact ⟨.addN id t, h, rfl⟩

/-- Joining a nonempty parent with a child name yields a separator. -/
theorem hasSlash_pathJoin (p n : String) (h : p ≠ "") :
    hasSlash (pathJoin p n) = true := by
  rw [pathJoin, if_neg (by simpa [String.isEmpty_iff] using h)]
  simp [hasSlash, String.data_append]

/-- A string holding a separator is nonempty. -/
theorem ne_empty_of_hasSlash (s : String) (h : hasSlash s = true) : s ≠ "" := by
  intro hEq
  subst hEq
  simp [hasSlash] at h

mutual
/-- With a nonempty parent identifier, every first-pass node identifier
holds a separator. -/
theorem pass1_ids_slash (pid : String) (d : FSDir) (hp : pid ≠ "") :
    ∀ p ∈ pass1Dir pid d, hasSlash p.1 = true := by
  cases d with
  | mk n files ds =>
    intro p hmem
    rw [pass1Dir] at hmem
    simp only [List.mem_append] at hmem
    rcases hmem with (h | h) | h
    · exact pass1names_ids_slash pid ds hp p h
    · rcases List.mem_map.1 h with ⟨f, _, hEq⟩
      cases hEq
      exact hasSlash_pathJoin pid f.1 hp
    · exact pass1s_ids_slash pid ds hp p h
termination_by structural d

theorem pass1names_ids_slash (pid : String) (ds : FSDirs) (hp : pid ≠ "") :
    ∀ p ∈ pass1DirNames pid ds, hasSlash p.1 = true := by
  cases ds with
  | nil =>
    intro p hmem
    rw [pass1DirNames] at hmem
    cases hmem
  | cons d rest =>
    intro p hmem
    rw [pass1DirNames] at hmem
    simp only [List.mem_append] at hmem
    rcases hmem with h | h
    · split at h
      · rcases List.mem_singleton.1 h with rfl
        exact hasSlash_pathJoin pid d.name hp
      · cases h
    · exact pass1names_ids_slash pid rest hp p h
termination_by structural ds

theorem pass1s_ids_slash (pid : String) (ds : FSDirs) (hp : pid ≠ "") :
    ∀ p ∈ pass1Dirs pid ds, hasSlash p.1 = true := by
  cases ds with
  | nil =>
    intro p hmem
    rw [pass1Dirs] at hmem
    cases hmem
  | cons d rest =>
    intro p hmem
    rw [pass1Dirs] at hmem
    simp only [List.mem_append] at hmem
    rcases hmem with h | h
    · split at h
      · exact pass1_ids_slash (pathJoin pid d.name) d
          (ne_empty_of_hasSlash _ (hasSlash_pathJoin pid d.name hp)) p h
      · cases h
    · exact pass1s_ids_slash pid rest hp p h
termination_by structural ds
end

/-- Claim C8, amended: a node type is stable over pass 2 unless the
node identifier is itself inserted as a dependency name.  Since every
non-root filesystem identifier holds a path separator and Python import
names cannot, only the root node can be overwritten: when the root name
is not among the extracted import names, the root keeps its `folder`
type, and every identifier holding a separator keeps the type assigned
at its first insertion.  (The counterexample shows the root type being
overwritten when its name is imported.) -/
theorem c8_type_stability (d : FSDir) :
    (∀ x : String, x ∉ depNames d →
        (buildFullDependencyGraph d).typeOf x = (phase1Graph d).typeOf x)
    ∧ (hasSlash d.name = false → d.name ≠ "" → d.name ∉ depNames d →
        (buildFullDependencyGraph d).typeOf d.name = some NodeType.folder)
    ∧ ((∀ i ∈ depNames d, hasSlash i = false) →
        ∀ (x : String) (ty : Option NodeType),
          (phase1Graph d).typeOf x = ty → hasSlash x = true →
          (buildFullDependencyGraph d).typeOf x = ty) := by
  have hstable : ∀ x : String, x ∉ depNames d →
      (buildFullDependencyGraph d).typeOf x = (phase1Graph d).typeOf x := by
    intro x hx
    rw [buildFullDependencyGraph]
    exact typeOf_applyOps_ne (pass2Dir d.name d) (phase1Graph d) x
      (fun id t hm hEq => hx (hEq ▸ addN_mem_depNames d id t hm))
  refine ⟨hstable, ?_, ?_⟩
  · intro hslash hne hdep
    rw [hstable d.name hdep, phase1Graph]
    rw [typeOf_foldl_ne (pass1Dir d.name d) _ d.name
      (fun p hp hEq => by
        have := pass1_ids_slash d.name d hne p hp
        rw [hEq, hslash] at this
        cases this)]
    simp [Graph.typeOf, addNodeT, emptyGraph, Graph.hasNode]
  · intro hnames x ty hty hx
    have hnotdep : x ∉ depNames d := fun hmem => by
      rw [hnames x hmem] at hx
      cases hx
    rw [hstable x hnotdep, hty]

/-- Witness for C8 at the end-to-end example tree: the root name is
never imported, so the root keeps its `folder` type, and the file node
keeps its `python_file` type. -/
theorem c8_type_stability_witness :
    (buildFullDependencyGraph projTree).typeOf "proj" = some NodeType.folder
    ∧ (buildFullDependencyGraph projTree).typeOf "proj/a.py" = some NodeType.python_file := by
  have h := c8_type_stability projTree
  refine ⟨h.2.1 (by decide) (by decide) (by decide), ?_⟩
  exact h.2.2 (by decide) "proj/a.py" (some NodeType.python_file) (by decide) (by decide)

/-- Pruning keeps the directory name. -/
theorem name_pruneDir (d : FSDir) : (pruneDir d).name = d.name := by
  cases d with
  | mk n files ds => rw [pruneDir, FSDir.name, FSDir.name]

mutual
/-- Pruning hidden and noise subdirectories leaves pass 1 unchanged. -/
theorem prune_pass1Dir (pid : String) (d : FSDir) :
    pass1Dir pid (pruneDir d) = pass1Dir pid d := by
  cases d with
  | mk n files ds =>
    rw [pruneDir, pass1Dir, pass1Dir, prune_pass1DirNames pid ds, prune_pass1Dirs pid ds]
termination_by structural d

theorem prune_pass1DirNames (pid : String) (ds : FSDirs) :
    pass1DirNames pid (pruneDirs ds) = pass1DirNames pid ds := by
  cases ds with
  | nil => rw [pruneDirs]
  | cons d rest =>
    rw [pruneDirs]
    by_cases hk : keptDirName d.name
    · rw [if_pos hk, pass1DirNames, pass1DirNames, prune_pass1DirNames pid rest,
        name_pruneDir, if_pos hk]
    · rw [if_neg hk, pass1DirNames, prune_pass1DirNames pid rest, if_neg hk,
        List.nil_append]
termination_by structural ds

theorem prune_pass1Dirs (pid : String) (ds : FSDirs) :
    pass1Dirs pid (pruneDirs ds) = pass1Dirs pid ds := by
  cases ds with
  | nil => rw [pruneDirs]
  | cons d rest =>
    rw [pruneDirs]
    by_cases hk : keptDirName d.name
    · rw [if_pos hk, pass1Dirs, pass1Dirs, prune_pass1Dirs pid rest, name_pruneDir,
        if_pos hk, if_pos hk, prune_pass1Dir (pathJoin pid d.name) d]
    · rw [if_neg hk, pass1Dirs, prune_pass1Dirs pid rest, if_neg hk, List.nil_append]
termination_by structural ds
end

mutual
/-- Pruning hidden and noise subdirectories leaves pass 2 unchanged. -/
theorem prune_pass2Dir (pid : String) (d : FSDir) :
    pass2Dir pid (pruneDir d) = pass2Dir pid d := by
  cases d with
  | mk n files ds =>
    rw [pruneDir, pass2Dir, pass2Dir, prune_pass2DirNames pid ds, prune_pass2Dirs pid ds]
termination_by structural d

theorem prune_pass2DirNames (pid : String) (ds : FSDirs) :
    pass2DirNames pid (pruneDirs ds) = pass2DirNames pid ds := by
  cases ds with
  | nil => rw [pruneDirs]
  | cons d rest =>
    rw [pruneDirs]
    by_cases hk : keptDirName d.name
    · rw [if_pos hk, pass2DirNames, pass2DirNames, prune_pass2DirNames pid rest,
        name_pruneDir, if_pos hk]
    · rw [if_neg hk, pass2DirNames, prune_pass2DirNames pid rest, if_neg hk,
        List.nil_append]
termination_by structural ds

theorem prune_pass2Dirs (pid : String) (ds : FSDirs) :
    pass2Dirs pid (pruneDirs ds) = pass2Dirs pid ds := by
  cases ds with
  | nil => rw [pruneDirs]
  | cons d rest =>
    rw [pruneDirs]
    by_cases hk : keptDirName d.name
    · rw [if_pos hk, pass2Dirs, pass2Dirs, prune_pass2Dirs pid rest, name_pruneDir,
        if_pos hk, if_pos hk, prune_pass2Dir (pathJoin pid d.name) d]
    · rw [if_neg hk, pass2Dirs, prune_pass2Dirs pid rest, if_neg hk, List.nil_append]
termination_by structural ds
end

/-- Claim C3, amended: every subdirectory (at any depth) whose name
starts with `.` or is the bytecode cache directory `__pycache__`
contributes no node and no edge and is not descended into — removing
all of them leaves the graph unchanged.  Hidden files, however, are
kept by the walk (see the counterexample). -/
theorem c3_noise_dirs_pruned (d : FSDir) :
    buildFullDependencyGraph (pruneDir d) = buildFullDependencyGraph d := by
  rw [buildFullDependencyGraph, buildFullDependencyGraph, phase1Graph, phase1Graph,
    name_pruneDir, prune_pass1Dir d.name d, prune_pass2Dir d.name d]

/-- The import dict of one item renders to the import lines of the flat
report. -/
theorem flatten_imports (itemPfx : String) (lvl : Nat) :
    ∀ (l : List String) (c : Nat),
      (importDictFrom itemPfx c l).map
          (fun p => indentStr lvl ++ p.1 ++ " " ++ p.2.name)
        = importLinesFrom itemPfx lvl c l
  | [], _ => rfl
  | imp :: rest, c => by
    rw [importDictFrom, importLinesFrom, List.map_cons,
      flatten_imports itemPfx lvl rest (c + 1)]

/-- The cons step of the nested loop, match free. -/
theorem genJsonLoop_cons (d : FSDir) (item : String) (rest : List String)
    (c : Nat) (pfx : String) (lvl : Nat) :
    genJsonLoop d (item :: rest) c pfx lvl
      = (pfx ++ Nat.repr c ++ ".", jEntryFor d item (pfx ++ Nat.repr c ++ ".") lvl)
        :: genJsonLoop d rest (c + 1) pfx lvl := by
  rw [genJsonLoop]

/-- The entry of one item, match free. -/
theorem jEntryFor_eq (d : FSDir) (item : String) (itemPfx : String) (lvl : Nat) :
    jEntryFor d item itemPfx lvl
      = JEntry.mk item
          (if strEndsWith item ".py" then
            (if (importsForItem d item).isEmpty then none
             else some (importDictFrom itemPfx 1 (importsForItem d item)))
          else none)
          ((findSubdir d.subdirs item).map
            (fun d2 => generateJsonReportRecursive d2 itemPfx (lvl + 1))) := by
  rw [jEntryFor]
  congr 1
  split
  · rename_i d2 heq
    rw [heq]
    rfl
  · rename_i heq
    rw [heq]
    rfl

/-- The cons step of the flat loop, match free. -/
theorem genNumberedLoop_cons (d : FSDir) (item : String) (rest : List String)
    (c : Nat) (pfx : String) (lvl : Nat) :
    genNumberedLoop d (item :: rest) c pfx lvl
      = (indentStr lvl ++ (pfx ++ Nat.repr c ++ ".") ++ " " ++ item)
        :: (((if strEndsWith item ".py" then
              (if (importsForItem d item).isEmpty then []
               else importLinesFrom (pfx ++ Nat.repr c ++ ".") (lvl + 1) 1
                      (importsForItem d item))
             else [])
            ++ ((findSubdir d.subdirs item).map
                (fun d2 => generateNumberedReport d2 (pfx ++ Nat.repr c ++ ".") (lvl + 1))).getD [])
          ++ genNumberedLoop d rest (c + 1) pfx lvl) := by
  rw [genNumberedLoop]
  dsimp only
  congr 2
  congr 1
  split
  · rename_i d2 heq
    rw [heq]
    rfl
  · rename_i heq
    rw [heq]
    rfl

mutual
/-- Rendering the nested report reproduces the flat report. -/
theorem flatten_report (d : FSDir) (pfx : String) (lvl : Nat) :
    flattenJson lvl (generateJsonReportRecursive d pfx lvl)
      = generateNumberedReport d pfx lvl := by
  rw [generateJsonReportRecursive, generateNumberedReport]
  exact flatten_loop d (pyFilesOf d ++ dirsOf d) 1 pfx lvl
termination_by (sizeOf d, 1, 0)

/-- Rendering the nested loop output reproduces the flat loop output. -/
theorem flatten_loop (d : FSDir) (items : List String) (c : Nat)
    (pfx : String) (lvl : Nat) :
    flattenJson lvl (genJsonLoop d items c pfx lvl)
      = genNumberedLoop d items c pfx lvl := by
  cases items with
  | nil => rw [genJsonLoop, genNumberedLoop, flattenJson]
  | cons item rest =>
    have htail := flatten_loop d rest (c + 1) pfx lvl
    rw [genJsonLoop_cons, jEntryFor_eq, genNumberedLoop_cons]
    cases hs : findSubdir d.subdirs item with
    | none =>
      by_cases hpy : strEndsWith item ".py"
      · by_cases hemp : (importsForItem d item).isEmpty
        · simp [flattenJson, hpy, hemp, htail]
        · simp [flattenJson, hpy, hemp, htail, flatten_imports]
      · simp [flattenJson, hpy, htail]
    | some d2 =>
      have hrec := flatten_report d2 (pfx ++ Nat.repr c ++ ".") (lvl + 1)
      by_cases hpy : strEndsWith item ".py"
      · by_cases hemp : (importsForItem d item).isEmpty
        · simp [flattenJson, hpy, hemp, htail, hrec]
        · simp [flattenJson, hpy, hemp, htail, flatten_imports, hrec]
      · simp [flattenJson, hpy, htail, hrec]
termination_by (sizeOf d, 0, items.length)
decreasing_by
  all_goals first
    | exact Prod.Lex.right _ (Prod.Lex.right _ (by simp))
    | exact Prod.Lex.left _ _ (sizeOf_findSubdir_dir _ _ _ (by assumption))
end

/-- Claim C7: the flat numbered report and the nested structured report
assign identical ordinals — rendering the nested report (each entry as
its line under its key, then its import lines under their keys, then its
`files` dict recursively) reproduces the flat report line for line, for
every tree, prefix and level. -/
theorem c7_report_numbering (d : FSDir) (pfx : String) (lvl : Nat) :
    flattenJson lvl (generateJsonReportRecursive d pfx lvl)
      = generateNumberedReport d pfx lvl :=
  flatten_report d pfx lvl

/-- Unfolding of `decDigits` below the base. -/
theorem decDigits_lt (n : Nat) (h : n < 10) : decDigits n = [Nat.digitChar n] := by
  rw [decDigits]
  rw [dif_pos h]

/-- Unfolding of `decDigits` at or above the base. -/
theorem decDigits_ge (n : Nat) (h : ¬n < 10) :
    decDigits n = decDigits (n / 10) ++ [Nat.digitChar (n % 10)] := by
  rw [decDigits]
  rw [dif_neg h]

/-- The fuel-driven core of the decimal printer agrees with `decDigits`
whenever the fuel exceeds the number. -/
theorem toDigitsCore_decDigits :
    ∀ (fuel n : Nat) (ds : List Char), n < fuel →
      Nat.toDigitsCore 10 fuel n ds = decDigits n ++ ds
  | 0, n, _, h => absurd h (Nat.not_lt_zero n)
  | fuel + 1, n, ds, h => by
    rw [Nat.toDigitsCore]
    by_cases hdiv : n / 10 = 0
    · have hn : n < 10 := by omega
      rw [if_pos hdiv, decDigits_lt n hn, Nat.mod_eq_of_lt hn]
      rfl
    · have hn : ¬n < 10 := by omega
      have hlt : n / 10 < fuel := by
        have := Nat.div_lt_self (by omega : 0 < n) (by omega : 1 < 10)
        omega
      rw [if_neg hdiv,
        toDigitsCore_decDigits fuel (n / 10) (Nat.digitChar (n % 10) :: ds) hlt,
        decDigits_ge n hn, List.append_assoc]
      rfl

/-- The decimal string of a number is its digit list. -/
theorem repr_eq_decDigits (n : Nat) : Nat.repr n = (decDigits n).asString := by
  rw [Nat.repr, Nat.toDigits,
    toDigitsCore_decDigits (n + 1) n [] (Nat.lt_succ_self n), List.append_nil]

/-- A digit list is never empty. -/
theorem decDigits_ne_nil (n : Nat) : decDigits n ≠ [] := by
  by_cases h : n < 10
  · rw [decDigits_lt n h]
    exact List.cons_ne_nil _ _
  · rw [decDigits_ge n h]
    exact List.append_ne_nil_of_right_ne_nil _ (List.cons_ne_nil _ _)

/-- The digit characters of the ten decimal digits are distinct. -/
theorem digitChar_inj : ∀ a < 10, ∀ b < 10,
    Nat.digitChar a = Nat.digitChar b → a = b := by decide

/-- Decimal digit lists are distinct for distinct numbers. -/
theorem decDigits_inj (a : Nat) : ∀ b : Nat, decDigits a = decDigits b → a = b := by
  induction a using Nat.strong_induction_on with
  | _ a ih =>
    intro b h
    by_cases ha : a < 10 <;> by_cases hb : b < 10
    · rw [decDigits_lt a ha, decDigits_lt b hb] at h
      have h2 : Nat.digitChar a = Nat.digitChar b := by
        injection h
      exact digitChar_inj a ha b hb h2
    · rw [decDigits_lt a ha, decDigits_ge b hb] at h
      have hlen := congrArg List.length h
      simp only [List.length_cons, List.length_nil, List.length_append] at hlen
      have h0 : (decDigits (b / 10)).length = 0 := by omega
      exact absurd (List.length_eq_zero.1 h0) (decDigits_ne_nil (b / 10))
    · rw [decDigits_ge a ha, decDigits_lt b hb] at h
      have hlen := congrArg List.length h
      simp only [List.length_cons, List.length_nil, List.length_append] at hlen
      have h0 : (decDigits (a / 10)).length = 0 := by omega
      exact absurd (List.length_eq_zero.1 h0) (decDigits_ne_nil (a / 10))
    · rw [decDigits_ge a ha, decDigits_ge b hb] at h
      rcases List.append_inj' h (by rfl) with ⟨h1, h2⟩
      have h3 : Nat.digitChar (a % 10) = Nat.digitChar (b % 10) := by
        injection h2
      have hdig : a % 10 = b % 10 :=
        digitChar_inj (a % 10) (Nat.mod_lt a (by omega)) (b % 10)
          (Nat.mod_lt b (by omega)) h3
      have hdiv : a / 10 = b / 10 :=
        ih (a / 10) (Nat.div_lt_self (by omega) (by omega)) (b / 10) h1
      omega

/-- The decimal printer of the ordinals is injective. -/
theorem natRepr_inj (a b : Nat) (h : Nat.repr a = Nat.repr b) : a = b := by
  rw [repr_eq_decDigits, repr_eq_decDigits] at h
  exact decDigits_inj a b (by injection h)

/-- Two ordinal keys built from distinct counters are distinct. -/
theorem ordinalKey_inj (pfx : String) (a b : Nat)
    (h : pfx ++ Nat.repr a ++ "." = pfx ++ Nat.repr b ++ ".") : a = b := by
  apply natRepr_inj
  apply String.ext
  have hdata := congrArg String.data h
  simp only [String.data_append] at hdata
  rw [List.append_assoc, List.append_assoc] at hdata
  have h1 := List.append_cancel_left hdata
  exact List.append_inj' h1 (by rfl) |>.1

/-- Membership across one stable insertion. -/
theorem mem_insertLe (a x : String) :
    ∀ l : List String, a ∈ insertLe x l ↔ a = x ∨ a ∈ l
  | [] => by simp [insertLe]
  | y :: ys => by
    rw [insertLe]
    split
    · simp [List.mem_cons]
    · simp only [List.mem_cons, mem_insertLe a x ys]
      tauto

/-- Sorting keeps the members. -/
theorem mem_sortStr (a : String) :
    ∀ l : List String, a ∈ sortStr l ↔ a ∈ l
  | [] => by simp [sortStr]
  | x :: xs => by
    rw [sortStr, List.foldr_cons]
    rw [show List.foldr insertLe [] xs = sortStr xs from rfl]
    rw [mem_insertLe a x (sortStr xs), mem_sortStr a xs]
    simp [List.mem_cons]

/-- A subdirectory found by name is listed under that name. -/
theorem findSubdir_name_mem :
    ∀ (ds : FSDirs) (n : String) (d2 : FSDir),
      findSubdir ds n = some d2 → n ∈ ds.names
  | .nil, n, d2, h => by simp [findSubdir] at h
  | .cons d rest, n, d2, h => by
    rw [findSubdir] at h
    rw [FSDirs.names]
    by_cases hd : d.name = n
    · exact hd ▸ List.mem_cons_self _ _
    · rw [if_neg hd] at h
      exact List.mem_cons_of_mem _ (findSubdir_name_mem rest n d2 h)

/-- The nested loop pairs the item at position `i` with the ordinal of
counter `c + i`. -/
theorem genJsonLoop_getElem? :
    ∀ (items : List String) (i : Nat) (d : FSDir) (c : Nat) (pfx : String) (lvl : Nat),
      (genJsonLoop d items c pfx lvl)[i]?
        = (items[i]?).map (fun item =>
            (pfx ++ Nat.repr (c + i) ++ ".",
             jEntryFor d item (pfx ++ Nat.repr (c + i) ++ ".") lvl))
  | [], i, d, c, pfx, lvl => by
    rw [genJsonLoop]
    simp
  | item :: rest, 0, d, c, pfx, lvl => by
    rw [genJsonLoop_cons]
    simp
  | item :: rest, i + 1, d, c, pfx, lvl => by
    rw [genJsonLoop_cons]
    simp only [List.getElem?_cons_succ]
    rw [genJsonLoop_getElem? rest i d (c + 1) pfx lvl]
    have hc : c + 1 + i = c + (i + 1) := by omega
    rw [hc]

/-- The flat loop prints the item at position `i` under the ordinal of
counter `c + i`. -/
theorem genNumberedLoop_mem_line :
    ∀ (items : List String) (i : Nat) (d : FSDir) (c : Nat) (pfx : String)
      (lvl : Nat) (item : String),
      items[i]? = some item →
      (indentStr lvl ++ (pfx ++ Nat.repr (c + i) ++ ".") ++ " " ++ item)
        ∈ genNumberedLoop d items c pfx lvl
  | [], i, _, _, _, _, _, h => by simp at h
  | item0 :: rest, 0, d, c, pfx, lvl, item, h => by
    rw [List.getElem?_cons_zero, Option.some.injEq] at h
    subst h
    rw [genNumberedLoop_cons]
    simp only [Nat.add_zero]
    exact List.mem_cons_self _ _
  | item0 :: rest, i + 1, d, c, pfx, lvl, item, h => by
    rw [List.getElem?_cons_succ] at h
    rw [genNumberedLoop_cons]
    have hc : c + (i + 1) = c + 1 + i := by omega
    rw [hc]
    exact List.mem_cons_of_mem _
      (List.mem_append_right _ (genNumberedLoop_mem_line rest i d (c + 1) pfx lvl item h))

/-- The flat loop renders the contents of a directory item at position
`i` under the ordinal of counter `c + i`. -/
theorem genNumberedLoop_mem_sub :
    ∀ (items : List String) (i : Nat) (d : FSDir) (c : Nat) (pfx : String)
      (lvl : Nat) (item : String) (sub : FSDir),
      items[i]? = some item → findSubdir d.subdirs item = some sub →
      ∀ s ∈ generateNumberedReport sub (pfx ++ Nat.repr (c + i) ++ ".") (lvl + 1),
        s ∈ genNumberedLoop d items c pfx lvl
  | [], i, _, _, _, _, _, _, h, _ => by simp at h
  | item0 :: rest, 0, d, c, pfx, lvl, item, sub, h, hsub => by
    rw [List.getElem?_cons_zero, Option.some.injEq] at h
    subst h
    intro s hs
    rw [genNumberedLoop_cons, hsub]
    refine List.mem_cons_of_mem _ (List.mem_append_left _ (List.mem_append_right _ ?_))
    simpa using hs
  | item0 :: rest, i + 1, d, c, pfx, lvl, item, sub, h, hsub => by
    rw [List.getElem?_cons_succ] at h
    intro s hs
    rw [genNumberedLoop_cons]
    have hc : c + (i + 1) = c + 1 + i := by omega
    rw [hc] at hs
    exact List.mem_cons_of_mem _
      (List.mem_append_right _
        (genNumberedLoop_mem_sub rest i d (c + 1) pfx lvl item sub h hsub s hs))

/-- Claim C10: a subdirectory whose name ends in `.py` lands in both the
`py_files` and the `dirs` partition, so both report generators list it
twice at its level, under two distinct ordinals, and render its contents
recursively under both ordinal prefixes. -/
theorem c10_double_listing (d : FSDir) (pfx : String) (lvl : Nat) (n : String)
    (sub : FSDir)
    (hsub : findSubdir d.subdirs n = some sub)
    (hpy : strEndsWith n ".py" = true)
    (hvis : strStartsWith n "." = false) :
    ∃ k1 k2 : String, k1 ≠ k2
      ∧ (k1, jEntryFor d n k1 lvl) ∈ generateJsonReportRecursive d pfx lvl
      ∧ (k2, jEntryFor d n k2 lvl) ∈ generateJsonReportRecursive d pfx lvl
      ∧ (jEntryFor d n k1 lvl).files = some (generateJsonReportRecursive sub k1 (lvl + 1))
      ∧ (jEntryFor d n k2 lvl).files = some (generateJsonReportRecursive sub k2 (lvl + 1))
      ∧ (indentStr lvl ++ k1 ++ " " ++ n) ∈ generateNumberedReport d pfx lvl
      ∧ (indentStr lvl ++ k2 ++ " " ++ n) ∈ generateNumberedReport d pfx lvl
      ∧ (∀ s ∈ generateNumberedReport sub k1 (lvl + 1), s ∈ generateNumberedReport d pfx lvl)
      ∧ (∀ s ∈ generateNumberedReport sub k2 (lvl + 1), s ∈ generateNumberedReport d pfx lvl) := by
  have hnames : n ∈ d.subdirs.names := findSubdir_name_mem d.subdirs n sub hsub
  have hitems : n ∈ sortedItems d := by
    rw [sortedItems, mem_sortStr]
    refine List.mem_filter.2 ⟨List.mem_append_right _ hnames, ?_⟩
    simp [hvis]
  have hpyf : n ∈ pyFilesOf d := List.mem_filter.2 ⟨hitems, hpy⟩
  have hdirf : n ∈ dirsOf d := List.mem_filter.2 ⟨hitems, by rw [hsub]; rfl⟩
  obtain ⟨i, hi⟩ := List.getElem?_of_mem hpyf
  obtain ⟨j, hj⟩ := List.getElem?_of_mem hdirf
  have hilen : i < (pyFilesOf d).length := (List.getElem?_eq_some_iff.1 hi).1
  have hitems_i : (pyFilesOf d ++ dirsOf d)[i]? = some n := by
    rw [List.getElem?_append_left hilen]
    exact hi
  have hitems_j : (pyFilesOf d ++ dirsOf d)[(pyFilesOf d).length + j]? = some n := by
    rw [List.getElem?_append_right (by omega)]
    simpa [Nat.add_sub_cancel_left] using hj
  refine ⟨pfx ++ Nat.repr (1 + i) ++ ".",
    pfx ++ Nat.repr (1 + ((pyFilesOf d).length + j)) ++ ".",
    ?_, ?_, ?_, ?_, ?_, ?_, ?_, ?_, ?_⟩
  · intro hEq
    have := ordinalKey_inj pfx _ _ hEq
    omega
  · rw [generateJsonReportRecursive]
    refine List.mem_iff_getElem?.2 ⟨i, ?_⟩
    rw [genJsonLoop_getElem? _ i d 1 pfx lvl, hitems_i]
    rfl
  · rw [generateJsonReportRecursive]
    refine List.mem_iff_getElem?.2 ⟨(pyFilesOf d).length + j, ?_⟩
    rw [genJsonLoop_getElem? _ _ d 1 pfx lvl, hitems_j]
    rfl
  · rw [jEntryFor_eq, JEntry.files, hsub]
    rfl
  · rw [jEntryFor_eq, JEntry.files, hsub]
    rfl
  · rw [generateNumberedReport]
    exact genNumberedLoop_mem_line _ i d 1 pfx lvl n hitems_i
  · rw [generateNumberedReport]
    exact genNumberedLoop_mem_line _ _ d 1 pfx lvl n hitems_j
  · intro s hs
    rw [generateNumberedReport]
    exact genNumberedLoop_mem_sub _ i d 1 pfx lvl n sub hitems_i hsub s hs
  · intro s hs
    rw [generateNumberedReport]
    exact genNumberedLoop_mem_sub _ _ d 1 pfx lvl n sub hitems_j hsub s hs

/-- Witness for C10 at a tree containing the directory `sub.py`. -/
theorem c10_double_listing_witness :
    ∃ k1 k2 : String, k1 ≠ k2
      ∧ (k1, jEntryFor dirPyTree "sub.py" k1 0) ∈ generateJsonReportRecursive dirPyTree "" 0
      ∧ (k2, jEntryFor dirPyTree "sub.py" k2 0) ∈ generateJsonReportRecursive dirPyTree "" 0
      ∧ (jEntryFor dirPyTree "sub.py" k1 0).files
          = some (generateJsonReportRecursive dirPySub k1 1)
      ∧ (jEntryFor dirPyTree "sub.py" k2 0).files
          = some (generateJsonReportRecursive dirPySub k2 1)
      ∧ (indentStr 0 ++ k1 ++ " " ++ "sub.py") ∈ generateNumberedReport dirPyTree "" 0
      ∧ (indentStr 0 ++ k2 ++ " " ++ "sub.py") ∈ generateNumberedReport dirPyTree "" 0
      ∧ (∀ s ∈ generateNumberedReport dirPySub k1 1, s ∈ generateNumberedReport dirPyTree "" 0)
      ∧ (∀ s ∈ generateNumberedReport dirPySub k2 1, s ∈ generateNumberedReport dirPyTree "" 0) :=
  c10_double_listing dirPyTree "" 0 "sub.py" dirPySub rfl (by decide) (by decide)

end PlasticApp
